import Mathlib

/-!
# Verification of the Tempest Cartesian core against its specification

Shallow embedding of the numerical kernels of the Tempest non-hydrostatic
atmospheric dynamical core (Cartesian configuration):

* `GridPatchCartesianGLL.cpp` — geometric terms, boundary conditions,
  test-case evaluation;
* `LinearColumnOperatorFEM.cpp` — vertical column operators
  (interpolation, first derivative by the interface and flux-correction
  methods, second derivative on GLL nodes);
* `ThermalBubbleCartesianTest.cpp` — the thermal rising bubble test case.

Real-valued quantities are embedded over an arbitrary linearly ordered
field `K` (instantiated at `ℚ` for concrete evaluations and at `ℝ` where
transcendental functions are required).  Collaborators of the embedded
code that are not part of the sources (the polynomial-interpolation
kernel, the flux-correction function, the vertical stretch, the physical
constants) are modelled from the specification and marked as such.
-/

namespace Tempest

variable {K : Type} [LinearOrderedField K]

/-! ## Polynomial kernels

Modelled from the spec (§4.1 Quadrature & polynomial kernels):
`PolynomialInterp.cpp` is not under `src/`.  The spec provides
"Lagrangian interpolation coefficients `L_i(x*)` at an arbitrary `x*`
given `n` sample points; derivative coefficients `L_i'(x*)`" with the
guarantees `∑ L_i(x*) = 1` and `∑ L_i'(x*) = 0`, which we prove below. -/

/-- Modelled from the spec: `PolynomialInterp::LagrangianPolynomialCoeffs`.
Coefficient of the `i`-th Lagrange basis polynomial over the sample points
`pts 0, …, pts (n-1)`, evaluated at `x`. -/
def lagCoeff (n : ℕ) (pts : ℕ → K) (i : ℕ) (x : K) : K :=
  ∏ j ∈ (Finset.range n).erase i, (x - pts j) / (pts i - pts j)

/-- Modelled from the spec: `PolynomialInterp::DiffLagrangianPolynomialCoeffs`.
Derivative of the `i`-th Lagrange basis polynomial over the sample points
`pts 0, …, pts (n-1)`, evaluated at `x`. -/
def dlagCoeff (n : ℕ) (pts : ℕ → K) (i : ℕ) (x : K) : K :=
  ∑ m ∈ (Finset.range n).erase i,
    (pts i - pts m)⁻¹ *
      ∏ j ∈ ((Finset.range n).erase i).erase m, (x - pts j) / (pts i - pts j)

lemma lagCoeff_eq_eval_basis (n : ℕ) (pts : ℕ → K) (i : ℕ) (x : K) :
    lagCoeff n pts i x = (Lagrange.basis (Finset.range n) pts i).eval x := by
  unfold lagCoeff Lagrange.basis
  rw [Polynomial.eval_prod]
  refine Finset.prod_congr rfl fun j _ => ?_
  simp [Lagrange.basisDivisor, div_eq_mul_inv, mul_comm]

/-- Product rule for `Polynomial.derivative` over a `Finset` product. -/
lemma derivative_finset_prod {ι : Type} [DecidableEq ι] (s : Finset ι)
    (f : ι → Polynomial K) :
    Polynomial.derivative (∏ j ∈ s, f j)
      = ∑ i ∈ s, (∏ j ∈ s.erase i, f j) * Polynomial.derivative (f i) := by
  rw [Finset.prod_eq_multiset_prod, Polynomial.derivative_prod,
    Finset.sum_eq_multiset_sum]
  congr 1

lemma dlagCoeff_eq_eval_derivative (n : ℕ) (pts : ℕ → K) (i : ℕ) (x : K) :
    dlagCoeff n pts i x
      = (Polynomial.derivative (Lagrange.basis (Finset.range n) pts i)).eval x := by
  unfold dlagCoeff Lagrange.basis
  rw [derivative_finset_prod, Polynomial.eval_finset_sum]
  refine Finset.sum_congr rfl fun m _ => ?_
  rw [Polynomial.eval_mul, Polynomial.eval_prod]
  have hderiv :
      Polynomial.derivative (Lagrange.basisDivisor (pts i) (pts m))
        = Polynomial.C (pts i - pts m)⁻¹ := by
    simp [Lagrange.basisDivisor]
  rw [hderiv, Polynomial.eval_C, mul_comm]
  congr 1
  refine Finset.prod_congr rfl fun j _ => ?_
  simp [Lagrange.basisDivisor, div_eq_mul_inv, mul_comm]

/-- Auxiliary: pairwise-distinct points are injective on `range n`. -/
lemma injOn_of_pairwise_ne (n : ℕ) (pts : ℕ → K)
    (hinj : ∀ i < n, ∀ j < n, i ≠ j → pts i ≠ pts j) :
    Set.InjOn pts (Finset.range n) := by
  intro i hi j hj hij
  by_contra h
  exact hinj i (by simpa using hi) j (by simpa using hj) h hij

/-- The spec's kernel guarantee `∑ L_i(x*) = 1`. -/
lemma sum_lagCoeff (n : ℕ) (hn : n ≠ 0) (pts : ℕ → K)
    (hinj : ∀ i < n, ∀ j < n, i ≠ j → pts i ≠ pts j) (x : K) :
    ∑ i ∈ Finset.range n, lagCoeff n pts i x = 1 := by
  have hvs := injOn_of_pairwise_ne n pts hinj
  have hs : (Finset.range n).Nonempty := Finset.nonempty_range_iff.mpr hn
  calc ∑ i ∈ Finset.range n, lagCoeff n pts i x
      = (∑ i ∈ Finset.range n, Lagrange.basis (Finset.range n) pts i).eval x := by
        rw [Polynomial.eval_finset_sum]
        exact Finset.sum_congr rfl fun i _ => lagCoeff_eq_eval_basis n pts i x
    _ = (1 : Polynomial K).eval x := by rw [Lagrange.sum_basis hvs hs]
    _ = 1 := Polynomial.eval_one

/-- The spec's kernel guarantee `∑ L_i'(x*) = 0`. -/
lemma sum_dlagCoeff (n : ℕ) (hn : n ≠ 0) (pts : ℕ → K)
    (hinj : ∀ i < n, ∀ j < n, i ≠ j → pts i ≠ pts j) (x : K) :
    ∑ i ∈ Finset.range n, dlagCoeff n pts i x = 0 := by
  have hvs := injOn_of_pairwise_ne n pts hinj
  have hs : (Finset.range n).Nonempty := Finset.nonempty_range_iff.mpr hn
  calc ∑ i ∈ Finset.range n, dlagCoeff n pts i x
      = (Polynomial.derivative
          (∑ i ∈ Finset.range n, Lagrange.basis (Finset.range n) pts i)).eval x := by
        rw [map_sum, Polynomial.eval_finset_sum]
        exact Finset.sum_congr rfl fun i _ => dlagCoeff_eq_eval_derivative n pts i x
    _ = (Polynomial.derivative (1 : Polynomial K)).eval x := by
        rw [Lagrange.sum_basis hvs hs]
    _ = 0 := by simp

/-- Summing a function supported on the index block `[off, off+n)` over a range
containing it reduces to the sum over the block. -/
lemma sum_blockFn (N off n : ℕ) (hoff : off + n ≤ N) (f : ℕ → K) :
    ∑ k ∈ Finset.range N, (if off ≤ k ∧ k < off + n then f (k - off) else 0)
      = ∑ s ∈ Finset.range n, f s := by
  have hfilter :
      (Finset.range N).filter (fun k => off ≤ k ∧ k < off + n)
        = Finset.Ico off (off + n) := by
    ext k
    simp only [Finset.mem_filter, Finset.mem_range, Finset.mem_Ico]
    constructor
    · rintro ⟨_, h1, h2⟩; exact ⟨h1, h2⟩
    · rintro ⟨h1, h2⟩; exact ⟨lt_of_lt_of_le h2 hoff, h1, h2⟩
  rw [← Finset.sum_filter, hfilter, Finset.sum_Ico_eq_sum_range]
  have h1 : off + n - off = n := by omega
  rw [h1]
  exact Finset.sum_congr rfl fun s _ => by
    congr 1
    omega

/-! ## Column operators (`LinearColumnOperatorFEM.cpp`) -/

/-- The tolerance `ParamEpsilon = 1.0e-12` of `LinearColumnOperatorFEM.cpp`. -/
def paramEpsilon : K := 1 / 10 ^ 12

/-- The element-search loop shared by the column-operator initializers:
starting from element `a` with `m` loop iterations remaining, return the
index of the finite element containing `x` together with the flag
`fOnREdge` (whether `x` lies within the `2ε` window of an internal
finite-element edge).  `edge` holds the interface reference coordinates
and `p` is the vertical order. -/
def findElem (edge : ℕ → K) (p : ℕ) (x : K) : ℕ → ℕ → ℕ × Bool
  | a, 0 => (a, false)
  | a, m + 1 =>
    if x < edge ((a + 1) * p) - paramEpsilon then (a, false)
    else if x < edge ((a + 1) * p) - paramEpsilon + 2 * paramEpsilon then (a, true)
    else findElem edge p x (a + 1) m

lemma findElem_fst_le (edge : ℕ → K) (p : ℕ) (x : K) :
    ∀ m a, (findElem edge p x a m).1 ≤ a + m := by
  intro m
  induction m with
  | zero => intro a; simp [findElem]
  | succ m ih =>
    intro a
    rw [findElem]
    split
    · simp
    · split
      · simp
      · exact le_trans (ih (a + 1)) (by omega)

lemma findElem_snd_true_lt (edge : ℕ → K) (p : ℕ) (x : K) :
    ∀ m a, (findElem edge p x a m).2 = true → (findElem edge p x a m).1 < a + m := by
  intro m
  induction m with
  | zero => intro a h; simp [findElem] at h
  | succ m ih =>
    intro a
    rw [findElem]
    split
    · intro h; simp at h
    · split
      · intro _; simp only []; omega
      · intro h
        have := ih (a + 1) h
        omega

lemma paramEpsilon_pos : (0 : K) < paramEpsilon := by
  rw [paramEpsilon]
  positivity

lemma findElem_stop_false (edge : ℕ → K) (p : ℕ) (x : K) :
    ∀ j m a, j < m →
      (∀ i < j, edge ((a + i + 1) * p) + paramEpsilon ≤ x) →
      x < edge ((a + j + 1) * p) - paramEpsilon →
      findElem edge p x a m = (a + j, false) := by
  have heps : (0 : K) < paramEpsilon := paramEpsilon_pos
  intro j
  induction j with
  | zero =>
    intro m a hm _ hbr
    obtain ⟨m', rfl⟩ : ∃ m', m = m' + 1 := ⟨m - 1, by omega⟩
    rw [findElem, if_pos (by simpa using hbr)]
    simp
  | succ j ih =>
    intro m a hm hskip hbr
    obtain ⟨m', rfl⟩ : ∃ m', m = m' + 1 := ⟨m - 1, by omega⟩
    have h0 : edge ((a + 1) * p) + paramEpsilon ≤ x := by
      have := hskip 0 (by omega)
      simpa using this
    have hidx : a + (j + 1) + 1 = a + 1 + j + 1 := by omega
    rw [hidx] at hbr
    rw [findElem, if_neg (by push_neg; linarith), if_neg (by push_neg; linarith)]
    have hres := ih m' (a + 1) (by omega)
      (fun i hi => by
        have h := hskip (i + 1) (by omega)
        have hidx2 : a + (i + 1) + 1 = a + 1 + i + 1 := by omega
        rw [hidx2] at h
        exact h)
      hbr
    have hidx3 : a + 1 + j = a + (j + 1) := by omega
    rw [hidx3] at hres
    exact hres

lemma findElem_stop_true (edge : ℕ → K) (p : ℕ) (x : K) :
    ∀ j m a, j < m →
      (∀ i < j, edge ((a + i + 1) * p) + paramEpsilon ≤ x) →
      edge ((a + j + 1) * p) - paramEpsilon ≤ x →
      x < edge ((a + j + 1) * p) + paramEpsilon →
      findElem edge p x a m = (a + j, true) := by
  have heps : (0 : K) < paramEpsilon := paramEpsilon_pos
  intro j
  induction j with
  | zero =>
    intro m a hm _ hbr1 hbr2
    obtain ⟨m', rfl⟩ : ∃ m', m = m' + 1 := ⟨m - 1, by omega⟩
    rw [findElem, if_neg (by push_neg; simpa using hbr1), if_pos (by
      have : edge ((a + 0 + 1) * p) - paramEpsilon + 2 * paramEpsilon
          = edge ((a + 0 + 1) * p) + paramEpsilon := by ring
      simp only [Nat.add_zero] at this hbr2 ⊢
      linarith)]
    simp
  | succ j ih =>
    intro m a hm hskip hbr1 hbr2
    obtain ⟨m', rfl⟩ : ∃ m', m = m' + 1 := ⟨m - 1, by omega⟩
    have h0 : edge ((a + 1) * p) + paramEpsilon ≤ x := by
      have := hskip 0 (by omega)
      simpa using this
    have hidx : a + (j + 1) + 1 = a + 1 + j + 1 := by omega
    rw [hidx] at hbr1 hbr2
    rw [findElem, if_neg (by push_neg; linarith), if_neg (by push_neg; linarith)]
    have hres := ih m' (a + 1) (by omega)
      (fun i hi => by
        have h := hskip (i + 1) (by omega)
        have hidx2 : a + (i + 1) + 1 = a + 1 + i + 1 := by omega
        rw [hidx2] at h
        exact h)
      hbr1 hbr2
    have hidx3 : a + 1 + j = a + (j + 1) := by omega
    rw [hidx3] at hres
    exact hres

lemma findElem_exhaust (edge : ℕ → K) (p : ℕ) (x : K) :
    ∀ m a, (∀ i < m, edge ((a + i + 1) * p) + paramEpsilon ≤ x) →
      findElem edge p x a m = (a + m, false) := by
  have heps : (0 : K) < paramEpsilon := paramEpsilon_pos
  intro m
  induction m with
  | zero => intro a _; simp [findElem]
  | succ m ih =>
    intro a hskip
    have h0 : edge ((a + 1) * p) + paramEpsilon ≤ x := by
      have := hskip 0 (by omega)
      simpa using this
    rw [findElem, if_neg (by push_neg; linarith), if_neg (by push_neg; linarith)]
    have hres := ih (a + 1)
      (fun i hi => by
        have h := hskip (i + 1) (by omega)
        have hidx2 : a + (i + 1) + 1 = a + 1 + i + 1 := by omega
        rw [hidx2] at h
        exact h)
    have hidx3 : a + 1 + m = a + (m + 1) := by omega
    rw [hidx3] at hres
    exact hres

/-- Lower bound `lBegin` of the active output rows of
`LinearColumnInterpFEM::Initialize`: with `fZeroBoundaries` set, the row at
`REta = 0` is left zero. -/
def interpLBegin (out : ℕ → K) (fZB : Bool) : ℕ :=
  if fZB = true ∧ |out 0| < paramEpsilon then 1 else 0

/-- Upper bound `lEnd` of the active output rows of
`LinearColumnInterpFEM::Initialize`: with `fZeroBoundaries` set, the row at
`REta = 1` is left zero. -/
def interpLEnd (nOut : ℕ) (out : ℕ → K) (fZB : Bool) : ℕ :=
  if fZB = true ∧ |out (nOut - 1) - 1| < paramEpsilon then nOut - 1 else nOut

/-- Entry `(l, k)` of the interpolation operator from nodes
(`LinearColumnInterpFEM::Initialize` with `InterpSource_Levels`):
`p` is the vertical order, `nFE` the number of finite elements, `node` and
`edge` the nodal and interface reference coordinates, `out` the `nOut`
output coordinates.  Row `l` holds Lagrange coefficients over the sample
nodes of the containing element (with the low-order overrides at the
first and last output when `p = 1`), and outputs that coincide with an
internal finite-element edge blend the two one-sided interpolants with
the error weights `Δ^p`. -/
def interpRow (p nFE : ℕ) (node edge : ℕ → K) (nOut : ℕ) (out : ℕ → K)
    (fZB : Bool) (l k : ℕ) : K :=
  if interpLBegin out fZB ≤ l ∧ l < interpLEnd nOut out fZB then
    let r := findElem edge p (out l) 0 (nFE - 1)
    let a := r.1
    let iB := if p = 1 ∧ l = 0 then a * p
      else if p = 1 ∧ l = nOut - 1 then (a - 1) * p
      else a * p
    let iE := if p = 1 ∧ l = 0 then (a + 2) * p
      else if p = 1 ∧ l = nOut - 1 then (a + 1) * p
      else (a + 1) * p
    let nb := if p = 1 ∧ (l = 0 ∨ l = nOut - 1) then p + 1 else p
    let base : ℕ → K := fun k' =>
      if iB ≤ k' ∧ k' < iE then lagCoeff nb (fun s => node (iB + s)) (k' - iB) (out l)
      else 0
    if r.2 then
      let dL := edge ((a + 1) * p) - edge (a * p)
      let dR := edge ((a + 2) * p) - edge ((a + 1) * p)
      let wL := dR ^ p / (dL ^ p + dR ^ p)
      let wR := dL ^ p / (dL ^ p + dR ^ p)
      wL * base k
        + (if iE ≤ k ∧ k < iE + p then
            wR * lagCoeff p (fun s => node ((a + 1) * p + s)) (k - iE) (out l)
          else 0)
    else base k
  else 0

/-- Entry `(l, k)` of the interface-method derivative operator acting on
interface values (`LinearColumnDiffFEM::InitializeInterfaceMethod` before
the optional composition with the interpolation operator).  Row `l`
differentiates the degree-`p` interface polynomial of the containing
element; at outputs that coincide with an internal finite-element edge
the two one-sided derivatives are blended with the error weights `Δ^p`. -/
def diffIfaceRow (p nFE : ℕ) (edge : ℕ → K) (out : ℕ → K) (l k : ℕ) : K :=
  let r := findElem edge p (out l) 0 (nFE - 1)
  let a := r.1
  let base : ℕ → K := fun k' =>
    if a * p ≤ k' ∧ k' < (a + 1) * p + 1 then
      dlagCoeff (p + 1) (fun s => edge (a * p + s)) (k' - a * p) (out l)
    else 0
  if r.2 then
    let dL := edge ((a + 1) * p) - edge (a * p)
    let dR := edge ((a + 2) * p) - edge ((a + 1) * p)
    let wL := dR ^ p / (dL ^ p + dR ^ p)
    let wR := dL ^ p / (dL ^ p + dR ^ p)
    wL * base k
      + (if (a + 1) * p ≤ k ∧ k < (a + 2) * p + 1 then
          wR * dlagCoeff (p + 1) (fun s => edge ((a + 1) * p + s)) (k - (a + 1) * p) (out l)
        else 0)
  else base k

/-- Entry `(l, k)` of the interface-method derivative operator acting on
nodal values (`InitializeInterfaceMethod` with `InterpSource_Levels`).
Modelled from the spec for the composition step: `LinearColumnOperator::ComposeWith`
is not under `src/`; §3 of the spec states that compositions of column
operators are dense matrix products. -/
def diffNodeRow (p nFE : ℕ) (node edge : ℕ → K) (out : ℕ → K)
    (fZB : Bool) (l k : ℕ) : K :=
  ∑ m ∈ Finset.range (nFE * p + 1),
    diffIfaceRow p nFE edge out l m
      * interpRow p nFE node edge (nFE * p + 1) edge fZB m k

/-- Entry `(l, k)` of the flux-correction derivative operator
(`LinearColumnDiffFEM::InitializeFluxCorrectionMethod`, nodal source).
`gderiv` stands for `FluxCorrectionFunction::GetDerivatives` with
`ParamFluxCorrectionType = 2` and order `p + 1`; it is modelled from the
spec ("right Radau family") as an arbitrary function since
`FluxCorrectionFunction.cpp` is not under `src/`.  The real `pow` on the
positive element widths is embedded as the natural power `^ p`. -/
def fcRow (p nFE : ℕ) (node edge : ℕ → K) (gderiv : K → K) (fZB : Bool)
    (out : ℕ → K) (l k : ℕ) : K :=
  let r := findElem edge p (out l) 0 (nFE - 1)
  let a := r.1
  let dREta := edge ((a + 1) * p) - edge (a * p)
  let xiR := (out l - edge (a * p)) / dREta
  let dR := gderiv xiR
  let dL := -(gderiv (1 - xiR))
  let lagLL : ℕ → K := fun s => lagCoeff p (fun t => node ((a - 1) * p + t)) s (edge (a * p))
  let lagLR : ℕ → K := fun s => lagCoeff p (fun t => node (a * p + t)) s (edge (a * p))
  let lagRL : ℕ → K := fun s => lagCoeff p (fun t => node (a * p + t)) s (edge ((a + 1) * p))
  let lagRR : ℕ → K :=
    fun s => lagCoeff p (fun t => node ((a + 1) * p + t)) s (edge ((a + 1) * p))
  let localPart : K :=
    (if a * p ≤ k ∧ k < (a + 1) * p then
        (if r.2 then (1 / 2 : K) * dREta else dREta)
          * dlagCoeff p (fun t => node (a * p + t)) (k - a * p) (out l)
      else 0)
    + (if r.2 = true ∧ (a + 1) * p ≤ k ∧ k < (a + 2) * p then
        (1 / 2 : K) * dREta
          * dlagCoeff p (fun t => node ((a + 1) * p + t)) (k - (a + 1) * p) (out l)
      else 0)
  let corrL : K :=
    if a ≠ 0 then
      (if r.2 = false ∧ (a - 1) * p ≤ k ∧ k < a * p then
          (1 / 2 : K) * dL * lagLL (k - (a - 1) * p)
        else 0)
      + (if a * p ≤ k ∧ k < (a + 1) * p then -((1 / 2 : K) * dL * lagLR (k - a * p)) else 0)
    else if fZB = false ∧ nFE ≠ 1 then
      (if a * p ≤ k ∧ k < (a + 1) * p then (1 / 2 : K) * dL * lagRL (k - a * p) else 0)
      + (if (a + 1) * p ≤ k ∧ k < (a + 2) * p then
          -((1 / 2 : K) * dL * lagRR (k - (a + 1) * p))
        else 0)
    else 0
  let corrR : K :=
    if a ≠ nFE - 1 then
      (if (a + 1) * p ≤ k ∧ k < (a + 2) * p then
          (1 / 2 : K) * dR * lagRR (k - (a + 1) * p)
        else 0)
      + (if a * p ≤ k ∧ k < (a + 1) * p then -((1 / 2 : K) * dR * lagRL (k - a * p)) else 0)
    else if fZB = false ∧ nFE ≠ 1 then
      (if a * p ≤ k ∧ k < (a + 1) * p then (1 / 2 : K) * dR * lagLR (k - a * p) else 0)
      + (if (a - 1) * p ≤ k ∧ k < a * p then
          -((1 / 2 : K) * dR * lagLL (k - (a - 1) * p))
        else 0)
    else 0
  (localPart + corrL + corrR) / dREta

/-- `fcRow` with the domain-boundary correction condition abstracted:
`addB` replaces the guard under which the one-sided boundary correction
terms are added at `a = 0` and `a = nFE - 1`.  The claim's wording
instantiates `addB := ¬(fZB = true ∧ nFE = 1)`; the code's guard is
`fZB = false ∧ nFE ≠ 1`. -/
def fcRowWith (addB : Prop) [Decidable addB] (p nFE : ℕ) (node edge : ℕ → K)
    (gderiv : K → K) (out : ℕ → K) (l k : ℕ) : K :=
  let r := findElem edge p (out l) 0 (nFE - 1)
  let a := r.1
  let dREta := edge ((a + 1) * p) - edge (a * p)
  let xiR := (out l - edge (a * p)) / dREta
  let dR := gderiv xiR
  let dL := -(gderiv (1 - xiR))
  let lagLL : ℕ → K := fun s => lagCoeff p (fun t => node ((a - 1) * p + t)) s (edge (a * p))
  let lagLR : ℕ → K := fun s => lagCoeff p (fun t => node (a * p + t)) s (edge (a * p))
  let lagRL : ℕ → K := fun s => lagCoeff p (fun t => node (a * p + t)) s (edge ((a + 1) * p))
  let lagRR : ℕ → K :=
    fun s => lagCoeff p (fun t => node ((a + 1) * p + t)) s (edge ((a + 1) * p))
  let localPart : K :=
    (if a * p ≤ k ∧ k < (a + 1) * p then
        (if r.2 then (1 / 2 : K) * dREta else dREta)
          * dlagCoeff p (fun t => node (a * p + t)) (k - a * p) (out l)
      else 0)
    + (if r.2 = true ∧ (a + 1) * p ≤ k ∧ k < (a + 2) * p then
        (1 / 2 : K) * dREta
          * dlagCoeff p (fun t => node ((a + 1) * p + t)) (k - (a + 1) * p) (out l)
      else 0)
  let corrL : K :=
    if a ≠ 0 then
      (if r.2 = false ∧ (a - 1) * p ≤ k ∧ k < a * p then
          (1 / 2 : K) * dL * lagLL (k - (a - 1) * p)
        else 0)
      + (if a * p ≤ k ∧ k < (a + 1) * p then -((1 / 2 : K) * dL * lagLR (k - a * p)) else 0)
    else if addB then
      (if a * p ≤ k ∧ k < (a + 1) * p then (1 / 2 : K) * dL * lagRL (k - a * p) else 0)
      + (if (a + 1) * p ≤ k ∧ k < (a + 2) * p then
          -((1 / 2 : K) * dL * lagRR (k - (a + 1) * p))
        else 0)
    else 0
  let corrR : K :=
    if a ≠ nFE - 1 then
      (if (a + 1) * p ≤ k ∧ k < (a + 2) * p then
          (1 / 2 : K) * dR * lagRR (k - (a + 1) * p)
        else 0)
      + (if a * p ≤ k ∧ k < (a + 1) * p then -((1 / 2 : K) * dR * lagRL (k - a * p)) else 0)
    else if addB then
      (if a * p ≤ k ∧ k < (a + 1) * p then (1 / 2 : K) * dR * lagLR (k - a * p) else 0)
      + (if (a - 1) * p ≤ k ∧ k < a * p then
          -((1 / 2 : K) * dR * lagLL (k - (a - 1) * p))
        else 0)
    else 0
  (localPart + corrL + corrR) / dREta

/-- Entry `(jx, ix)` of the second-derivative operator on GLL nodes
(`LinearColumnDiffDiffFEM::InitializeGLLNodes`).  Elements share their
endpoint nodes, so element `a` owns the nodes `a*(p-1), …, a*(p-1)+p-1`
and contributions accumulate over elements; the quadrature weight of a
shared contact node is doubled.  The per-element GLL quadrature points
and weights `dG dW : element → index → K` stand for
`GaussLobattoQuadrature::GetPoints`, which is not under `src/` and is
modelled from the spec as a parameter. -/
def diffDiffRow (p nFE : ℕ) (node : ℕ → K) (dG dW : ℕ → ℕ → K) (jx ix : ℕ) : K :=
  let D : ℕ → ℕ → ℕ → K :=
    fun a s j => dlagCoeff p (fun t => node (a * (p - 1) + t)) j (dG a s)
  (∑ a ∈ Finset.range nFE,
    if a * (p - 1) ≤ jx ∧ jx < a * (p - 1) + p ∧ a * (p - 1) ≤ ix ∧ ix < a * (p - 1) + p then
      let j := jx - a * (p - 1)
      let i := ix - a * (p - 1)
      let wlocal := dW a j * (if j = 0 ∧ a ≠ 0 then 2 else 1)
        * (if j = p - 1 ∧ a ≠ nFE - 1 then 2 else 1)
      ∑ s ∈ Finset.range p, -(D a s j * D a s i * dW a s / wlocal)
    else 0)
  + (if jx = 0 ∧ ix < p then -(D 0 0 ix / dW 0 0) else 0)
  + (if jx = nFE * (p - 1)
        ∧ (nFE - 1) * (p - 1) ≤ ix ∧ ix < (nFE - 1) * (p - 1) + p then
      D (nFE - 1) (p - 1) (ix - (nFE - 1) * (p - 1)) / dW (nFE - 1) (p - 1)
    else 0)

/-! ## Row-sum lemmas for the derivative operators -/

/-- Points of a strictly increasing grid are pairwise distinct on a block. -/
lemma block_pairwise_ne (M : ℕ) (grid : ℕ → K)
    (hg : ∀ i j, i < j → j ≤ M → grid i < grid j)
    (off n : ℕ) (hn : off + n ≤ M + 1) :
    ∀ i < n, ∀ j < n, i ≠ j → grid (off + i) ≠ grid (off + j) := by
  intro i hi j hj hij
  rcases lt_or_gt_of_ne hij with h | h
  · exact ne_of_lt (hg (off + i) (off + j) (by omega) (by omega))
  · exact (ne_of_lt (hg (off + j) (off + i) (by omega) (by omega))).symm

/-- Any row of the interface-method derivative operator on interface values
sums to zero: applied to a constant column it produces zero. -/
lemma sum_diffIfaceRow (p nFE : ℕ) (hp : p ≠ 0) (hFE : nFE ≠ 0) (edge : ℕ → K)
    (hedge : ∀ i j, i < j → j ≤ nFE * p → edge i < edge j)
    (out : ℕ → K) (l : ℕ) :
    ∑ k ∈ Finset.range (nFE * p + 1), diffIfaceRow p nFE edge out l k = 0 := by
  rcases hfe : findElem edge p (out l) 0 (nFE - 1) with ⟨a, onE⟩
  have ha : a ≤ nFE - 1 := by
    have := findElem_fst_le edge p (out l) (nFE - 1) 0
    rw [hfe] at this
    simpa using this
  have haP : (a + 1) * p ≤ nFE * p :=
    Nat.mul_le_mul_right p (by omega : a + 1 ≤ nFE)
  have hdistL : ∀ i < p + 1, ∀ j < p + 1, i ≠ j →
      edge (a * p + i) ≠ edge (a * p + j) :=
    block_pairwise_ne (nFE * p) edge hedge (a * p) (p + 1)
      (by rw [add_one_mul] at haP; omega)
  have hsumL :
      ∑ k ∈ Finset.range (nFE * p + 1),
        (if a * p ≤ k ∧ k < (a + 1) * p + 1 then
          dlagCoeff (p + 1) (fun s => edge (a * p + s)) (k - a * p) (out l)
        else 0) = 0 := by
    have hguard : ∀ k, (a * p ≤ k ∧ k < (a + 1) * p + 1)
        = (a * p ≤ k ∧ k < a * p + (p + 1)) := by
      intro k
      rw [add_one_mul]
      ring_nf
    simp only [hguard]
    have hblock := sum_blockFn (nFE * p + 1) (a * p) (p + 1)
      (by rw [add_one_mul] at haP; omega)
      (fun m => dlagCoeff (p + 1) (fun s => edge (a * p + s)) m (out l))
    calc ∑ k ∈ Finset.range (nFE * p + 1),
          (if a * p ≤ k ∧ k < a * p + (p + 1) then
            dlagCoeff (p + 1) (fun s => edge (a * p + s)) (k - a * p) (out l)
          else 0)
        = ∑ s ∈ Finset.range (p + 1),
            dlagCoeff (p + 1) (fun s' => edge (a * p + s')) s (out l) := by
          simpa using hblock
      _ = 0 := sum_dlagCoeff (p + 1) (by omega) _ hdistL (out l)
  cases onE with
  | false =>
    have hrow : ∀ k, diffIfaceRow p nFE edge out l k
        = (if a * p ≤ k ∧ k < (a + 1) * p + 1 then
            dlagCoeff (p + 1) (fun s => edge (a * p + s)) (k - a * p) (out l)
          else 0) := by
      intro k
      simp [diffIfaceRow, hfe]
    rw [Finset.sum_congr rfl fun k _ => hrow k]
    exact hsumL
  | true =>
    have halt : a < nFE - 1 := by
      have := findElem_snd_true_lt edge p (out l) (nFE - 1) 0 (by rw [hfe])
      rw [hfe] at this
      simpa using this
    have haP2 : (a + 2) * p ≤ nFE * p :=
      Nat.mul_le_mul_right p (by omega : a + 2 ≤ nFE)
    have hdistR : ∀ i < p + 1, ∀ j < p + 1, i ≠ j →
        edge ((a + 1) * p + i) ≠ edge ((a + 1) * p + j) :=
      block_pairwise_ne (nFE * p) edge hedge ((a + 1) * p) (p + 1)
        (by rw [show (a + 2) * p = (a + 1) * p + p from by ring] at haP2; omega)
    have hsumR :
        ∑ k ∈ Finset.range (nFE * p + 1),
          (if (a + 1) * p ≤ k ∧ k < (a + 2) * p + 1 then
            dlagCoeff (p + 1) (fun s => edge ((a + 1) * p + s)) (k - (a + 1) * p) (out l)
          else 0) = 0 := by
      have hguard : ∀ k, ((a + 1) * p ≤ k ∧ k < (a + 2) * p + 1)
          = ((a + 1) * p ≤ k ∧ k < (a + 1) * p + (p + 1)) := by
        intro k
        rw [show (a + 2) * p = (a + 1) * p + p from by ring]
        ring_nf
      simp only [hguard]
      have hblock := sum_blockFn (nFE * p + 1) ((a + 1) * p) (p + 1)
        (by rw [show (a + 2) * p = (a + 1) * p + p from by ring] at haP2; omega)
        (fun m => dlagCoeff (p + 1) (fun s => edge ((a + 1) * p + s)) m (out l))
      calc ∑ k ∈ Finset.range (nFE * p + 1),
            (if (a + 1) * p ≤ k ∧ k < (a + 1) * p + (p + 1) then
              dlagCoeff (p + 1) (fun s => edge ((a + 1) * p + s)) (k - (a + 1) * p) (out l)
            else 0)
          = ∑ s ∈ Finset.range (p + 1),
              dlagCoeff (p + 1) (fun s' => edge ((a + 1) * p + s')) s (out l) := by
            simpa using hblock
        _ = 0 := sum_dlagCoeff (p + 1) (by omega) _ hdistR (out l)
    have hrow : ∀ k, diffIfaceRow p nFE edge out l k
        = (edge ((a + 2) * p) - edge ((a + 1) * p)) ^ p
            / ((edge ((a + 1) * p) - edge (a * p)) ^ p
              + (edge ((a + 2) * p) - edge ((a + 1) * p)) ^ p)
          * (if a * p ≤ k ∧ k < (a + 1) * p + 1 then
              dlagCoeff (p + 1) (fun s => edge (a * p + s)) (k - a * p) (out l)
            else 0)
          + (if (a + 1) * p ≤ k ∧ k < (a + 2) * p + 1 then
              (edge ((a + 1) * p) - edge (a * p)) ^ p
                / ((edge ((a + 1) * p) - edge (a * p)) ^ p
                  + (edge ((a + 2) * p) - edge ((a + 1) * p)) ^ p)
                * dlagCoeff (p + 1) (fun s => edge ((a + 1) * p + s)) (k - (a + 1) * p) (out l)
            else 0) := by
      intro k
      simp [diffIfaceRow, hfe]
    rw [Finset.sum_congr rfl fun k _ => hrow k, Finset.sum_add_distrib, ← Finset.mul_sum,
      hsumL, mul_zero, zero_add]
    have hfactor : ∀ k : ℕ,
        (if (a + 1) * p ≤ k ∧ k < (a + 2) * p + 1 then
          (edge ((a + 1) * p) - edge (a * p)) ^ p
            / ((edge ((a + 1) * p) - edge (a * p)) ^ p
              + (edge ((a + 2) * p) - edge ((a + 1) * p)) ^ p)
            * dlagCoeff (p + 1) (fun s => edge ((a + 1) * p + s)) (k - (a + 1) * p) (out l)
        else 0)
        = (edge ((a + 1) * p) - edge (a * p)) ^ p
            / ((edge ((a + 1) * p) - edge (a * p)) ^ p
              + (edge ((a + 2) * p) - edge ((a + 1) * p)) ^ p)
          * (if (a + 1) * p ≤ k ∧ k < (a + 2) * p + 1 then
              dlagCoeff (p + 1) (fun s => edge ((a + 1) * p + s)) (k - (a + 1) * p) (out l)
            else 0) := by
      intro k
      split <;> simp
    rw [Finset.sum_congr rfl fun k _ => hfactor k, ← Finset.mul_sum, hsumR, mul_zero]

/-- Chaining the per-interval separation hypothesis. -/
lemma edge_chain (M : ℕ) (edge : ℕ → K)
    (hgap : ∀ i < M, edge i + 2 * paramEpsilon < edge (i + 1)) :
    ∀ j i, i < j → j ≤ M → edge i + 2 * paramEpsilon ≤ edge j := by
  have heps : (0 : K) < paramEpsilon := paramEpsilon_pos
  intro j
  induction j with
  | zero => intro i hij _; omega
  | succ j ih =>
    intro i hij hjM
    rcases Nat.lt_or_ge i j with h | h
    · have h1 := ih i h (by omega)
      have h2 := hgap j (by omega)
      linarith
    · have hieq : i = j := by omega
      subst hieq
      exact le_of_lt (hgap i (by omega))

lemma edge_chain_lt (M : ℕ) (edge : ℕ → K)
    (hgap : ∀ i < M, edge i + 2 * paramEpsilon < edge (i + 1)) :
    ∀ i j, i < j → j ≤ M → edge i < edge j := by
  have heps : (0 : K) < paramEpsilon := paramEpsilon_pos
  intro i j hij hjM
  have := edge_chain M edge hgap j i hij hjM
  linarith

/-- The element search at the bottom interface `edge 0` finds element `0`,
not on an edge. -/
lemma findElem_at_edge_zero (p nFE : ℕ) (hp : p ≠ 0) (hFE : nFE ≠ 0) (edge : ℕ → K)
    (hgap : ∀ i < nFE * p, edge i + 2 * paramEpsilon < edge (i + 1)) :
    findElem edge p (edge 0) 0 (nFE - 1) = (0, false) := by
  have heps : (0 : K) < paramEpsilon := paramEpsilon_pos
  rcases Nat.eq_or_lt_of_le (Nat.one_le_iff_ne_zero.mpr hFE) with h1 | h1
  · rw [← h1]
    simp [findElem]
  · have hchain := edge_chain (nFE * p) edge hgap ((0 + 0 + 1) * p) 0
      (by simpa using Nat.pos_of_ne_zero hp)
      (by simpa using Nat.mul_le_mul_right p (by omega : 1 ≤ nFE))
    have := findElem_stop_false edge p (edge 0) 0 (nFE - 1) 0 (by omega)
      (by omega) (by linarith)
    simpa using this

/-- The element search at an internal interface `edge (b*p)`,
`1 ≤ b ≤ nFE - 1`, finds element `b - 1` with the on-edge flag set. -/
lemma findElem_at_edge_mid (p nFE : ℕ) (hp : p ≠ 0) (edge : ℕ → K)
    (hgap : ∀ i < nFE * p, edge i + 2 * paramEpsilon < edge (i + 1)) (b : ℕ)
    (hb1 : 1 ≤ b) (hb2 : b ≤ nFE - 1) :
    findElem edge p (edge (b * p)) 0 (nFE - 1) = (b - 1, true) := by
  have heps : (0 : K) < paramEpsilon := paramEpsilon_pos
  have hnFE : 2 ≤ nFE := by omega
  have hskip : ∀ i < b - 1, edge ((0 + i + 1) * p) + paramEpsilon ≤ edge (b * p) := by
    intro i hi
    have hlt : (0 + i + 1) * p < b * p :=
      (Nat.mul_lt_mul_right (Nat.pos_of_ne_zero hp)).mpr (by omega)
    have := edge_chain (nFE * p) edge hgap (b * p) ((0 + i + 1) * p) hlt
      (Nat.mul_le_mul_right p (by omega : b ≤ nFE))
    linarith
  have hidx : (0 + (b - 1) + 1) * p = b * p := by
    congr 1
    omega
  have := findElem_stop_true edge p (edge (b * p)) (b - 1) (nFE - 1) 0 (by omega)
    hskip (by rw [hidx]; linarith) (by rw [hidx]; linarith)
  simpa using this

/-- The element search at the top interface `edge (nFE * p)` exhausts the
loop and reports the last element, not on an edge. -/
lemma findElem_at_edge_top (p nFE : ℕ) (hp : p ≠ 0) (hFE : nFE ≠ 0) (edge : ℕ → K)
    (hgap : ∀ i < nFE * p, edge i + 2 * paramEpsilon < edge (i + 1)) :
    findElem edge p (edge (nFE * p)) 0 (nFE - 1) = (nFE - 1, false) := by
  have heps : (0 : K) < paramEpsilon := paramEpsilon_pos
  have hskip : ∀ i < nFE - 1,
      edge ((0 + i + 1) * p) + paramEpsilon ≤ edge (nFE * p) := by
    intro i hi
    have hlt : (0 + i + 1) * p < nFE * p :=
      (Nat.mul_lt_mul_right (Nat.pos_of_ne_zero hp)).mpr (by omega)
    have := edge_chain (nFE * p) edge hgap (nFE * p) ((0 + i + 1) * p) hlt (le_refl _)
    linarith
  have := findElem_exhaust edge p (edge (nFE * p)) (nFE - 1) 0 hskip
  simpa using this

/-- The element search at an interior point `edge (b*p + t)`, `0 < t < p`,
finds element `b`, not on an edge. -/
lemma findElem_at_edge_interior (p nFE : ℕ) (hp : p ≠ 0) (hFE : nFE ≠ 0) (edge : ℕ → K)
    (hgap : ∀ i < nFE * p, edge i + 2 * paramEpsilon < edge (i + 1))
    (b t : ℕ) (hb : b ≤ nFE - 1) (ht1 : 0 < t) (ht2 : t < p) :
    findElem edge p (edge (b * p + t)) 0 (nFE - 1) = (b, false) := by
  have heps : (0 : K) < paramEpsilon := paramEpsilon_pos
  have hskip : ∀ i < b, edge ((0 + i + 1) * p) + paramEpsilon ≤ edge (b * p + t) := by
    intro i hi
    have hle : (0 + i + 1) * p ≤ b * p :=
      Nat.mul_le_mul_right p (by omega)
    have hbound : b * p + t ≤ nFE * p := by
      have := Nat.mul_le_mul_right p (by omega : b + 1 ≤ nFE)
      rw [add_one_mul] at this
      omega
    have := edge_chain (nFE * p) edge hgap (b * p + t) ((0 + i + 1) * p)
      (by omega) hbound
    linarith
  rcases Nat.lt_or_ge b (nFE - 1) with hblt | hbge
  · have hbound2 : (0 + b + 1) * p ≤ nFE * p :=
      Nat.mul_le_mul_right p (by omega)
    have hbr : edge (b * p + t) < edge ((0 + b + 1) * p) - paramEpsilon := by
      have hlt : b * p + t < (0 + b + 1) * p := by
        have : (0 + b + 1) * p = b * p + p := by ring
        omega
      have := edge_chain (nFE * p) edge hgap ((0 + b + 1) * p) (b * p + t) hlt hbound2
      linarith
    have := findElem_stop_false edge p (edge (b * p + t)) b (nFE - 1) 0
      (by omega) hskip hbr
    simpa using this
  · have hbeq : b = nFE - 1 := by omega
    subst hbeq
    have := findElem_exhaust edge p (edge ((nFE - 1) * p + t)) (nFE - 1) 0 hskip
    simpa using this

/-- A block of Lagrange coefficients over `n` distinct sample points sums
to one. -/
lemma sum_lag_block (N off n : ℕ) (hn : n ≠ 0) (hbound : off + n ≤ N)
    (node : ℕ → K)
    (hdist : ∀ i < n, ∀ j < n, i ≠ j → node (off + i) ≠ node (off + j)) (x : K) :
    ∑ k ∈ Finset.range N,
      (if off ≤ k ∧ k < off + n then
        lagCoeff n (fun s => node (off + s)) (k - off) x
      else 0) = 1 := by
  have hblock := sum_blockFn N off n hbound
    (fun m => lagCoeff n (fun s => node (off + s)) m x)
  calc ∑ k ∈ Finset.range N,
        (if off ≤ k ∧ k < off + n then
          lagCoeff n (fun s => node (off + s)) (k - off) x
        else 0)
      = ∑ s ∈ Finset.range n, lagCoeff n (fun s' => node (off + s')) s x := by
        simpa using hblock
    _ = 1 := sum_lagCoeff n hn _ hdist x

/-- Every row of the node-source interpolation operator evaluated on the
interface output grid sums to one when `fZeroBoundaries` is off.  This is
the spec invariant "interpolation operator rows sum to 1". -/
lemma sum_interpRow_edgeOut (p nFE : ℕ) (hp : p ≠ 0) (hFE : nFE ≠ 0)
    (hp1 : p = 1 → 2 ≤ nFE) (node edge : ℕ → K)
    (hnode : ∀ i j, i < j → j < nFE * p → node i < node j)
    (hgap : ∀ i < nFE * p, edge i + 2 * paramEpsilon < edge (i + 1))
    (m : ℕ) (hm : m ≤ nFE * p) :
    ∑ k ∈ Finset.range (nFE * p),
      interpRow p nFE node edge (nFE * p + 1) edge false m k = 1 := by
  have heps : (0 : K) < paramEpsilon := paramEpsilon_pos
  have hactive : interpLBegin (K := K) edge false ≤ m
      ∧ m < interpLEnd (nFE * p + 1) edge false := by
    constructor
    · simp [interpLBegin]
    · simp only [interpLEnd]
      rw [if_neg (by simp)]
      omega
  have hdistblock : ∀ b n', b * p + n' ≤ nFE * p → n' ≠ 0 →
      ∀ i < n', ∀ j < n', i ≠ j → node (b * p + i) ≠ node (b * p + j) := by
    intro b n' hbn hn'
    exact block_pairwise_ne (nFE * p - 1) node
      (fun i j h1 h2 => hnode i j h1 (by omega)) (b * p) n' (by omega)
  -- decompose the output index
  rcases Nat.eq_zero_or_pos p with hp0 | hppos
  · exact absurd hp0 hp
  by_cases hP1 : p = 1
  · -- vertical order one: low-order overrides at the extreme rows
    subst hP1
    have hFE2 : 2 ≤ nFE := hp1 rfl
    by_cases hm0 : m = 0
    · subst hm0
      have hfe := findElem_at_edge_zero 1 nFE (by omega) hFE edge hgap
      have hrow : ∀ k, interpRow 1 nFE node edge (nFE * 1 + 1) edge false 0 k
          = (if 0 ≤ k ∧ k < 0 + 2 then
              lagCoeff 2 (fun s => node (0 + s)) (k - 0) (edge 0)
            else 0) := by
        intro k
        simp only [interpRow, hfe, if_pos hactive]
        norm_num
      rw [Finset.sum_congr rfl fun k _ => hrow k]
      exact sum_lag_block (nFE * 1) 0 2 (by omega) (by omega) node
        (by
          have := hdistblock 0 2 (by omega) (by omega)
          simpa using this) (edge 0)
    · by_cases hmtop : m = nFE * 1
      · subst hmtop
        have hfe := findElem_at_edge_top 1 nFE (by omega) hFE edge hgap
        have hrow : ∀ k, interpRow 1 nFE node edge (nFE * 1 + 1) edge false (nFE * 1) k
            = (if nFE - 1 - 1 ≤ k ∧ k < nFE - 1 - 1 + 2 then
                lagCoeff 2 (fun s => node (nFE - 1 - 1 + s))
                  (k - (nFE - 1 - 1)) (edge (nFE * 1))
              else 0) := by
          intro k
          simp only [interpRow, hfe, if_pos hactive]
          simp [hFE, show nFE - 1 - 1 + 2 = nFE - 1 + 1 from by omega]
        rw [Finset.sum_congr rfl fun k _ => hrow k]
        exact sum_lag_block (nFE * 1) (nFE - 1 - 1) 2 (by omega) (by omega) node
          (block_pairwise_ne (nFE * 1 - 1) node
            (fun i j h1 h2 => hnode i j h1 (by omega)) (nFE - 1 - 1) 2 (by omega))
          (edge (nFE * 1))
      · -- internal interface: the two one-sided order-one interpolants blend
        have hm1 : 1 ≤ m := by omega
        have hmFE : m ≤ nFE - 1 := by omega
        have hfe := findElem_at_edge_mid 1 nFE (by omega) edge hgap m hm1 hmFE
        rw [show m * 1 = m from by omega] at hfe
        have hwid1 : edge (m - 1) < edge (m - 1 + 1) :=
          edge_chain_lt (nFE * 1) edge hgap _ _ (by omega) (by omega)
        have hwid2 : edge (m - 1 + 1) < edge (m - 1 + 2) :=
          edge_chain_lt (nFE * 1) edge hgap _ _ (by omega) (by omega)
        set dL : K := edge (m - 1 + 1) - edge (m - 1) with hdL
        set dR : K := edge (m - 1 + 2) - edge (m - 1 + 1) with hdR
        have hdLpos : 0 < dL := by rw [hdL]; linarith
        have hdRpos : 0 < dR := by rw [hdR]; linarith
        have hden : dL ^ 1 + dR ^ 1 ≠ 0 := by positivity
        have hrow : ∀ k, interpRow 1 nFE node edge (nFE * 1 + 1) edge false m k
            = dR ^ 1 / (dL ^ 1 + dR ^ 1)
                * (if m - 1 ≤ k ∧ k < m - 1 + 1 then
                    lagCoeff 1 (fun s => node (m - 1 + s)) (k - (m - 1)) (edge m)
                  else 0)
              + (if m - 1 + 1 ≤ k ∧ k < m - 1 + 1 + 1 then
                  dL ^ 1 / (dL ^ 1 + dR ^ 1)
                    * lagCoeff 1 (fun s => node (m - 1 + 1 + s)) (k - (m - 1 + 1))
                        (edge m)
                else 0) := by
          intro k
          simp only [interpRow, hfe, if_pos hactive]
          simp [hdL, hdR, show ¬ m = 0 from by omega, show ¬ m = nFE from by omega]
        rw [Finset.sum_congr rfl fun k _ => hrow k, Finset.sum_add_distrib,
          ← Finset.mul_sum]
        have hsL := sum_lag_block (nFE * 1) (m - 1) 1 (by omega) (by omega) node
          (block_pairwise_ne (nFE * 1 - 1) node
            (fun i j h1 h2 => hnode i j h1 (by omega)) (m - 1) 1 (by omega)) (edge m)
        rw [hsL, mul_one]
        have hfac : ∀ k : ℕ,
            (if m - 1 + 1 ≤ k ∧ k < m - 1 + 1 + 1 then
              dL ^ 1 / (dL ^ 1 + dR ^ 1)
                * lagCoeff 1 (fun s => node (m - 1 + 1 + s)) (k - (m - 1 + 1)) (edge m)
            else 0)
              = dL ^ 1 / (dL ^ 1 + dR ^ 1)
                * (if m - 1 + 1 ≤ k ∧ k < m - 1 + 1 + 1 then
                    lagCoeff 1 (fun s => node (m - 1 + 1 + s)) (k - (m - 1 + 1)) (edge m)
                  else 0) := by
          intro k
          split <;> simp
        rw [Finset.sum_congr rfl fun k _ => hfac k, ← Finset.mul_sum,
          sum_lag_block (nFE * 1) (m - 1 + 1) 1 (by omega) (by omega) node
            (block_pairwise_ne (nFE * 1 - 1) node
              (fun i j h1 h2 => hnode i j h1 (by omega)) (m - 1 + 1) 1 (by omega))
            (edge m), mul_one]
        field_simp
        ring
  · -- vertical order at least two: no overrides
    have hp2 : 2 ≤ p := by omega
    obtain ⟨b, t, htlt, hb⟩ : ∃ b t, t < p ∧ b * p + t = m :=
      ⟨m / p, m % p, Nat.mod_lt m (by omega), by
        rw [mul_comm]
        exact Nat.div_add_mod m p⟩
    have hrowGuard : ∀ k (a : ℕ) (onE : Bool),
        findElem edge p (edge m) 0 (nFE - 1) = (a, onE) →
        interpRow p nFE node edge (nFE * p + 1) edge false m k
          = (if onE then
              (edge ((a + 2) * p) - edge ((a + 1) * p)) ^ p
                / ((edge ((a + 1) * p) - edge (a * p)) ^ p
                  + (edge ((a + 2) * p) - edge ((a + 1) * p)) ^ p)
                * (if a * p ≤ k ∧ k < (a + 1) * p then
                    lagCoeff p (fun s => node (a * p + s)) (k - a * p) (edge m)
                  else 0)
              + (if (a + 1) * p ≤ k ∧ k < (a + 1) * p + p then
                  (edge ((a + 1) * p) - edge (a * p)) ^ p
                    / ((edge ((a + 1) * p) - edge (a * p)) ^ p
                      + (edge ((a + 2) * p) - edge ((a + 1) * p)) ^ p)
                    * lagCoeff p (fun s => node ((a + 1) * p + s)) (k - (a + 1) * p)
                        (edge m)
                else 0)
            else
              (if a * p ≤ k ∧ k < (a + 1) * p then
                lagCoeff p (fun s => node (a * p + s)) (k - a * p) (edge m)
              else 0)) := by
      intro k a onE hfe
      have hq1 : (p = 1 ∧ m = 0) = False := eq_false (fun h => hP1 h.1)
      have hq2 : (p = 1 ∧ m = nFE * p + 1 - 1) = False := eq_false (fun h => hP1 h.1)
      have hq3 : (p = 1 ∧ (m = 0 ∨ m = nFE * p + 1 - 1)) = False :=
        eq_false (fun h => hP1 h.1)
      simp only [interpRow, hfe, if_pos hactive, hq1, hq2, hq3, if_false]
    by_cases ht0 : t = 0
    · -- output on an element interface
      have hmbp : m = b * p := by omega
      by_cases hb0 : b = 0
      · have hm00 : m = 0 := by
          rw [hb0, zero_mul] at hmbp
          exact hmbp
        have hfe : findElem edge p (edge m) 0 (nFE - 1) = (0, false) := by
          rw [hm00]
          exact findElem_at_edge_zero p nFE hp hFE edge hgap
        rw [Finset.sum_congr rfl fun k _ => hrowGuard k 0 false hfe]
        simp only [Bool.false_eq_true, if_false]
        have hbound : 0 * p + p ≤ nFE * p := by
          have := Nat.mul_le_mul_right p (by omega : 1 ≤ nFE)
          omega
        have hguard : ∀ k, (0 * p ≤ k ∧ k < (0 + 1) * p)
            = (0 * p ≤ k ∧ k < 0 * p + p) := by
          intro k
          rw [add_one_mul]
        simp only [hguard]
        exact sum_lag_block (nFE * p) (0 * p) p hp hbound node
          (hdistblock 0 p hbound hp) (edge m)
      · by_cases hbtop : b = nFE
        · have hmNP : m = nFE * p := by
            rw [hbtop] at hmbp
            exact hmbp
          have hfe : findElem edge p (edge m) 0 (nFE - 1)
              = (nFE - 1, false) := by
            rw [hmNP]
            exact findElem_at_edge_top p nFE hp hFE edge hgap
          rw [Finset.sum_congr rfl fun k _ => hrowGuard k (nFE - 1) false hfe]
          simp only [Bool.false_eq_true, if_false]
          have hbound : (nFE - 1) * p + p ≤ nFE * p := by
            have : (nFE - 1 + 1) * p ≤ nFE * p :=
              Nat.mul_le_mul_right p (by omega)
            rw [add_one_mul] at this
            omega
          have hguard : ∀ k, ((nFE - 1) * p ≤ k ∧ k < (nFE - 1 + 1) * p)
              = ((nFE - 1) * p ≤ k ∧ k < (nFE - 1) * p + p) := by
            intro k
            rw [add_one_mul]
          simp only [hguard]
          exact sum_lag_block (nFE * p) ((nFE - 1) * p) p hp hbound node
            (hdistblock (nFE - 1) p hbound hp) (edge m)
        · -- internal interface: blended row
          have hb1 : 1 ≤ b := by omega
          have hbFE : b ≤ nFE - 1 := by
            have : b * p ≤ nFE * p := by omega
            by_contra hcon
            have : nFE ≤ b - 1 := by omega
            have h2 : (b - 1 + 1) * p ≤ b * p := by
              apply Nat.mul_le_mul_right
              omega
            have h3 : nFE * p < b * p := by
              have h4 : nFE * p < (nFE + 1) * p := by
                rw [add_one_mul]
                omega
              have h5 : (nFE + 1) * p ≤ b * p := Nat.mul_le_mul_right p (by omega)
              omega
            omega
          have hfe : findElem edge p (edge m) 0 (nFE - 1) = (b - 1, true) := by
            have := findElem_at_edge_mid p nFE hp edge hgap b hb1 hbFE
            rw [show b * p = m from hmbp.symm] at this
            exact this
          have hbm1 : b - 1 + 1 = b := by omega
          have hbound2 : (b + 1) * p ≤ nFE * p := Nat.mul_le_mul_right p (by omega)
          have hwid1 : edge ((b - 1) * p) < edge (b * p) :=
            edge_chain_lt (nFE * p) edge hgap _ _
              ((Nat.mul_lt_mul_right (by omega)).mpr (by omega)) (by omega)
          have hwid2 : edge (b * p) < edge ((b + 1) * p) :=
            edge_chain_lt (nFE * p) edge hgap _ _
              ((Nat.mul_lt_mul_right (by omega)).mpr (by omega)) hbound2
          rw [Finset.sum_congr rfl fun k _ => hrowGuard k (b - 1) true hfe]
          simp only [if_true, hbm1, show b - 1 + 2 = b + 1 from by omega]
          set dL : K := edge (b * p) - edge ((b - 1) * p) with hdL
          set dR : K := edge ((b + 1) * p) - edge (b * p) with hdR
          have hdLpos : 0 < dL := by rw [hdL]; linarith
          have hdRpos : 0 < dR := by rw [hdR]; linarith
          have hden : dL ^ p + dR ^ p ≠ 0 := by positivity
          rw [Finset.sum_add_distrib, ← Finset.mul_sum]
          have hboundL : (b - 1) * p + p ≤ nFE * p := by
            have : (b - 1 + 1) * p ≤ nFE * p :=
              Nat.mul_le_mul_right p (by omega)
            rw [add_one_mul] at this
            omega
          have hguardL : ∀ k, ((b - 1) * p ≤ k ∧ k < b * p)
              = ((b - 1) * p ≤ k ∧ k < (b - 1) * p + p) := by
            intro k
            rw [show b * p = (b - 1) * p + p from by
              rw [← add_one_mul, hbm1]]
          have hsL : ∑ k ∈ Finset.range (nFE * p),
              (if (b - 1) * p ≤ k ∧ k < b * p then
                lagCoeff p (fun s => node ((b - 1) * p + s)) (k - (b - 1) * p)
                  (edge m)
              else 0) = 1 := by
            simp only [hguardL]
            exact sum_lag_block (nFE * p) ((b - 1) * p) p hp hboundL node
              (hdistblock (b - 1) p hboundL hp) (edge m)
          rw [hsL, mul_one]
          have hboundR : b * p + p ≤ nFE * p := by
            rw [← add_one_mul]
            exact hbound2
          have hfac : ∀ k : ℕ,
              (if b * p ≤ k ∧ k < b * p + p then
                dL ^ p / (dL ^ p + dR ^ p)
                  * lagCoeff p (fun s => node (b * p + s)) (k - b * p) (edge m)
              else 0)
                = dL ^ p / (dL ^ p + dR ^ p)
                  * (if b * p ≤ k ∧ k < b * p + p then
                      lagCoeff p (fun s => node (b * p + s)) (k - b * p) (edge m)
                    else 0) := by
            intro k
            split <;> simp
          rw [Finset.sum_congr rfl fun k _ => hfac k, ← Finset.mul_sum,
            sum_lag_block (nFE * p) (b * p) p hp hboundR node
              (hdistblock b p hboundR hp) (edge m), mul_one]
          field_simp
          ring
    · -- output strictly inside an element
      have htpos : 0 < t := by omega
      have hbFE : b ≤ nFE - 1 := by
        by_contra hcon
        have : nFE ≤ b := by omega
        have : nFE * p ≤ b * p := Nat.mul_le_mul_right p this
        omega
      have hfe' : findElem edge p (edge m) 0 (nFE - 1) = (b, false) := by
        have := findElem_at_edge_interior p nFE hp hFE edge hgap b t hbFE htpos htlt
        rw [show b * p + t = m from by omega] at this
        exact this
      rw [Finset.sum_congr rfl fun k _ => hrowGuard k b false hfe']
      simp only [Bool.false_eq_true, if_false]
      have hbound : b * p + p ≤ nFE * p := by
        have : (b + 1) * p ≤ nFE * p := Nat.mul_le_mul_right p (by omega)
        rw [add_one_mul] at this
        omega
      have hguard : ∀ k, (b * p ≤ k ∧ k < (b + 1) * p)
          = (b * p ≤ k ∧ k < b * p + p) := by
        intro k
        rw [add_one_mul]
      simp only [hguard]
      exact sum_lag_block (nFE * p) (b * p) p hp hbound node
        (hdistblock b p hbound hp) (edge m)

/-- Any row of the interface-method derivative operator acting on nodal
values (composition with the interpolation operator, `fZeroBoundaries`
off) sums to zero. -/
lemma sum_diffNodeRow (p nFE : ℕ) (hp : p ≠ 0) (hFE : nFE ≠ 0)
    (hp1 : p = 1 → 2 ≤ nFE) (node edge : ℕ → K)
    (hnode : ∀ i j, i < j → j < nFE * p → node i < node j)
    (hgap : ∀ i < nFE * p, edge i + 2 * paramEpsilon < edge (i + 1))
    (out : ℕ → K) (l : ℕ) :
    ∑ k ∈ Finset.range (nFE * p), diffNodeRow p nFE node edge out false l k = 0 := by
  have hedge : ∀ i j, i < j → j ≤ nFE * p → edge i < edge j :=
    edge_chain_lt (nFE * p) edge hgap
  calc ∑ k ∈ Finset.range (nFE * p), diffNodeRow p nFE node edge out false l k
      = ∑ m ∈ Finset.range (nFE * p + 1), ∑ k ∈ Finset.range (nFE * p),
          diffIfaceRow p nFE edge out l m
            * interpRow p nFE node edge (nFE * p + 1) edge false m k := by
        unfold diffNodeRow
        exact Finset.sum_comm
    _ = ∑ m ∈ Finset.range (nFE * p + 1), diffIfaceRow p nFE edge out l m := by
        refine Finset.sum_congr rfl fun m hm => ?_
        rw [← Finset.mul_sum,
          sum_interpRow_edgeOut p nFE hp hFE hp1 node edge hnode hgap m
            (Nat.lt_succ_iff.mp (Finset.mem_range.mp hm)), mul_one]
    _ = 0 := sum_diffIfaceRow p nFE hp hFE edge hedge out l

/-- Any row of the flux-correction derivative operator whose output does
not coincide with an internal finite-element edge sums to zero,
regardless of the flux-correction function and of `fZeroBoundaries`:
applied to a constant column it produces zero there. -/
lemma sum_fcRow (p nFE : ℕ) (hp : p ≠ 0) (hFE : nFE ≠ 0) (node edge : ℕ → K)
    (hnode : ∀ i j, i < j → j < nFE * p → node i < node j)
    (gderiv : K → K) (fZB : Bool) (out : ℕ → K) (l : ℕ)
    (hnotE : (findElem edge p (out l) 0 (nFE - 1)).2 = false) :
    ∑ k ∈ Finset.range (nFE * p), fcRow p nFE node edge gderiv fZB out l k = 0 := by
  rcases hfe : findElem edge p (out l) 0 (nFE - 1) with ⟨a, onE⟩
  rw [hfe] at hnotE
  simp only at hnotE
  subst hnotE
  have ha : a ≤ nFE - 1 := by
    have := findElem_fst_le edge p (out l) (nFE - 1) 0
    rw [hfe] at this
    simpa using this
  have hdistblock : ∀ b, b * p + p ≤ nFE * p →
      ∀ i < p, ∀ j < p, i ≠ j → node (b * p + i) ≠ node (b * p + j) := by
    intro b hbn
    exact block_pairwise_ne (nFE * p - 1) node
      (fun i j h1 h2 => hnode i j h1 (by omega)) (b * p) p (by omega)
  have hlagB : ∀ (b B : ℕ) (c x : K), B = b * p + p → b * p + p ≤ nFE * p →
      ∑ k ∈ Finset.range (nFE * p),
        (if b * p ≤ k ∧ k < B then
          c * lagCoeff p (fun t => node (b * p + t)) (k - b * p) x
        else 0) = c := by
    intro b B c x hB hbound
    subst hB
    have hfac : ∀ k : ℕ, (if b * p ≤ k ∧ k < b * p + p then
        c * lagCoeff p (fun t => node (b * p + t)) (k - b * p) x else 0)
          = c * (if b * p ≤ k ∧ k < b * p + p then
              lagCoeff p (fun t => node (b * p + t)) (k - b * p) x else 0) := by
      intro k
      split <;> simp
    rw [Finset.sum_congr rfl fun k _ => hfac k, ← Finset.mul_sum,
      sum_lag_block (nFE * p) (b * p) p hp hbound node (hdistblock b hbound) x,
      mul_one]
  have hnegB : ∀ (b B : ℕ) (c x : K), B = b * p + p → b * p + p ≤ nFE * p →
      ∑ k ∈ Finset.range (nFE * p),
        (if b * p ≤ k ∧ k < B then
          -(c * lagCoeff p (fun t => node (b * p + t)) (k - b * p) x)
        else 0) = -c := by
    intro b B c x hB hbound
    have hfac : ∀ k : ℕ, (if b * p ≤ k ∧ k < B then
        -(c * lagCoeff p (fun t => node (b * p + t)) (k - b * p) x) else 0)
          = -(if b * p ≤ k ∧ k < B then
              c * lagCoeff p (fun t => node (b * p + t)) (k - b * p) x else 0) := by
      intro k
      split <;> simp
    rw [Finset.sum_congr rfl fun k _ => hfac k, Finset.sum_neg_distrib,
      hlagB b B c x hB hbound]
  have hdlagB : ∀ (b B : ℕ) (c x : K), B = b * p + p → b * p + p ≤ nFE * p →
      ∑ k ∈ Finset.range (nFE * p),
        (if b * p ≤ k ∧ k < B then
          c * dlagCoeff p (fun t => node (b * p + t)) (k - b * p) x
        else 0) = 0 := by
    intro b B c x hB hbound
    subst hB
    have hfac : ∀ k : ℕ, (if b * p ≤ k ∧ k < b * p + p then
        c * dlagCoeff p (fun t => node (b * p + t)) (k - b * p) x else 0)
          = c * (if b * p ≤ k ∧ k < b * p + p then
              dlagCoeff p (fun t => node (b * p + t)) (k - b * p) x else 0) := by
      intro k
      split <;> simp
    rw [Finset.sum_congr rfl fun k _ => hfac k, ← Finset.mul_sum]
    have hblock := sum_blockFn (nFE * p) (b * p) p hbound
      (fun m => dlagCoeff p (fun t => node (b * p + t)) m x)
    have : ∑ k ∈ Finset.range (nFE * p),
        (if b * p ≤ k ∧ k < b * p + p then
          dlagCoeff p (fun t => node (b * p + t)) (k - b * p) x else 0)
          = ∑ s ∈ Finset.range p, dlagCoeff p (fun t => node (b * p + t)) s x := by
      simpa using hblock
    rw [this, sum_dlagCoeff p hp _ (hdistblock b hbound) x, mul_zero]
  have hbound1 : (a + 1) * p ≤ nFE * p := Nat.mul_le_mul_right p (by omega)
  have haB : (a + 1) * p = a * p + p := by rw [add_one_mul]
  have haBle : a * p + p ≤ nFE * p := by omega
  simp only [fcRow, hfe]
  simp only [Bool.false_eq_true, if_false, false_and, and_false, eq_self_iff_true,
    true_and, if_true, add_zero]
  rw [← Finset.sum_div]
  rw [Finset.sum_add_distrib, Finset.sum_add_distrib]
  rw [hdlagB a ((a + 1) * p)
    (edge ((a + 1) * p) - edge (a * p)) (out l) haB haBle]
  have hCL : ∑ k ∈ Finset.range (nFE * p),
      (if a ≠ 0 then
        (if (a - 1) * p ≤ k ∧ k < a * p then
          (1 / 2 : K) * -(gderiv (1 - (out l - edge (a * p))
              / (edge ((a + 1) * p) - edge (a * p))))
            * lagCoeff p (fun t => node ((a - 1) * p + t)) (k - (a - 1) * p)
                (edge (a * p))
        else 0)
        + (if a * p ≤ k ∧ k < (a + 1) * p then
            -((1 / 2 : K) * -(gderiv (1 - (out l - edge (a * p))
                / (edge ((a + 1) * p) - edge (a * p))))
              * lagCoeff p (fun t => node (a * p + t)) (k - a * p) (edge (a * p)))
          else 0)
      else if fZB = false ∧ nFE ≠ 1 then
        (if a * p ≤ k ∧ k < (a + 1) * p then
          (1 / 2 : K) * -(gderiv (1 - (out l - edge (a * p))
              / (edge ((a + 1) * p) - edge (a * p))))
            * lagCoeff p (fun t => node (a * p + t)) (k - a * p)
                (edge ((a + 1) * p))
        else 0)
        + (if (a + 1) * p ≤ k ∧ k < (a + 2) * p then
            -((1 / 2 : K) * -(gderiv (1 - (out l - edge (a * p))
                / (edge ((a + 1) * p) - edge (a * p))))
              * lagCoeff p (fun t => node ((a + 1) * p + t)) (k - (a + 1) * p)
                  (edge ((a + 1) * p)))
          else 0)
      else 0) = 0 := by
    by_cases ha0 : a = 0
    · subst ha0
      simp only [ne_eq, not_true_eq_false, if_false]
      by_cases hguard : fZB = false ∧ ¬ nFE = 1
      · rw [Finset.sum_congr rfl fun k _ => by rw [if_pos hguard]]
        rw [Finset.sum_add_distrib]
        have hnFE2 : 2 ≤ nFE := by
          rcases hguard with ⟨_, h⟩
          omega
        have hb2 : (0 + 1) * p + p ≤ nFE * p := by
          have : (0 + 2) * p ≤ nFE * p := Nat.mul_le_mul_right p (by omega)
          rw [show (0 + 2) * p = (0 + 1) * p + p from by ring] at this
          exact this
        rw [hlagB 0 ((0 + 1) * p) _ _ (by rw [add_one_mul]) (by omega),
          hnegB (0 + 1) ((0 + 2) * p) _ _
            (by rw [show (0 + 2) * p = (0 + 1) * p + p from by ring]) hb2]
        ring
      · rw [Finset.sum_congr rfl fun k _ => by rw [if_neg hguard]]
        simp
    · rw [Finset.sum_congr rfl fun k _ => by rw [if_pos ha0]]
      rw [Finset.sum_add_distrib]
      have ha1 : 1 ≤ a := by omega
      have hbL : a * p = (a - 1) * p + p := by
        rw [← add_one_mul]
        congr 1
        omega
      have hbLle : (a - 1) * p + p ≤ nFE * p := by
        rw [← hbL]
        omega
      rw [hlagB (a - 1) (a * p) _ _ hbL hbLle,
        hnegB a ((a + 1) * p) _ _ haB haBle]
      ring
  rw [hCL]
  have hCR : ∑ k ∈ Finset.range (nFE * p),
      (if a ≠ nFE - 1 then
        (if (a + 1) * p ≤ k ∧ k < (a + 2) * p then
          (1 / 2 : K) * gderiv ((out l - edge (a * p))
              / (edge ((a + 1) * p) - edge (a * p)))
            * lagCoeff p (fun t => node ((a + 1) * p + t)) (k - (a + 1) * p)
                (edge ((a + 1) * p))
        else 0)
        + (if a * p ≤ k ∧ k < (a + 1) * p then
            -((1 / 2 : K) * gderiv ((out l - edge (a * p))
                / (edge ((a + 1) * p) - edge (a * p)))
              * lagCoeff p (fun t => node (a * p + t)) (k - a * p)
                  (edge ((a + 1) * p)))
          else 0)
      else if fZB = false ∧ nFE ≠ 1 then
        (if a * p ≤ k ∧ k < (a + 1) * p then
          (1 / 2 : K) * gderiv ((out l - edge (a * p))
              / (edge ((a + 1) * p) - edge (a * p)))
            * lagCoeff p (fun t => node (a * p + t)) (k - a * p) (edge (a * p))
        else 0)
        + (if (a - 1) * p ≤ k ∧ k < a * p then
            -((1 / 2 : K) * gderiv ((out l - edge (a * p))
                / (edge ((a + 1) * p) - edge (a * p)))
              * lagCoeff p (fun t => node ((a - 1) * p + t)) (k - (a - 1) * p)
                  (edge (a * p)))
          else 0)
      else 0) = 0 := by
    by_cases haN : a = nFE - 1
    · rw [Finset.sum_congr rfl fun k _ => by rw [if_neg (by simp [haN])]]
      by_cases hguard : fZB = false ∧ nFE ≠ 1
      · rw [Finset.sum_congr rfl fun k _ => by rw [if_pos hguard]]
        rw [Finset.sum_add_distrib]
        have hnFE2 : 2 ≤ nFE := by
          rcases hguard with ⟨_, h⟩
          omega
        have ha1 : 1 ≤ a := by omega
        have hbL : a * p = (a - 1) * p + p := by
          rw [← add_one_mul]
          congr 1
          omega
        have hbLle : (a - 1) * p + p ≤ nFE * p := by
          rw [← hbL]
          omega
        rw [hlagB a ((a + 1) * p) _ _ haB haBle,
          hnegB (a - 1) (a * p) _ _ hbL hbLle]
        ring
      · rw [Finset.sum_congr rfl fun k _ => by rw [if_neg hguard]]
        simp
    · rw [Finset.sum_congr rfl fun k _ => by rw [if_pos haN]]
      rw [Finset.sum_add_distrib]
      have haN2 : a + 2 ≤ nFE := by omega
      have hbR : (a + 2) * p = (a + 1) * p + p := by ring
      have hbRle : (a + 1) * p + p ≤ nFE * p := by
        rw [← hbR]
        exact Nat.mul_le_mul_right p haN2
      rw [hlagB (a + 1) ((a + 2) * p) _ _ hbR hbRle,
        hnegB a ((a + 1) * p) _ _ haB haBle]
      ring
  rw [hCR]
  simp

/-- Any row of the GLL-nodes second-derivative operator sums to zero, for
arbitrary quadrature points and weights: applied to a constant column it
produces zero. -/
lemma sum_diffDiffRow (p nFE : ℕ) (hp2 : 2 ≤ p) (hFE : nFE ≠ 0) (node : ℕ → K)
    (hnode : ∀ i j, i < j → j ≤ nFE * (p - 1) → node i < node j)
    (dG dW : ℕ → ℕ → K) (jx : ℕ) :
    ∑ ix ∈ Finset.range (nFE * (p - 1) + 1), diffDiffRow p nFE node dG dW jx ix
      = 0 := by
  have hp1 : p ≠ 0 := by omega
  have hdist : ∀ b, b * (p - 1) + p ≤ nFE * (p - 1) + 1 →
      ∀ i < p, ∀ j < p, i ≠ j →
        node (b * (p - 1) + i) ≠ node (b * (p - 1) + j) := by
    intro b hbn
    exact block_pairwise_ne (nFE * (p - 1)) node hnode (b * (p - 1)) p (by omega)
  unfold diffDiffRow
  rw [Finset.sum_add_distrib, Finset.sum_add_distrib]
  have hS1 : ∑ ix ∈ Finset.range (nFE * (p - 1) + 1),
      ∑ a ∈ Finset.range nFE,
        (if a * (p - 1) ≤ jx ∧ jx < a * (p - 1) + p
            ∧ a * (p - 1) ≤ ix ∧ ix < a * (p - 1) + p then
          ∑ s ∈ Finset.range p,
            -(dlagCoeff p (fun t => node (a * (p - 1) + t)) (jx - a * (p - 1)) (dG a s)
              * dlagCoeff p (fun t => node (a * (p - 1) + t)) (ix - a * (p - 1)) (dG a s)
              * dW a s
              / (dW a (jx - a * (p - 1))
                  * (if jx - a * (p - 1) = 0 ∧ a ≠ 0 then 2 else 1)
                  * (if jx - a * (p - 1) = p - 1 ∧ a ≠ nFE - 1 then 2 else 1)))
        else 0) = 0 := by
    rw [Finset.sum_comm]
    refine Finset.sum_eq_zero fun a ha => ?_
    by_cases hj : a * (p - 1) ≤ jx ∧ jx < a * (p - 1) + p
    · have hg : ∀ ix : ℕ,
          (a * (p - 1) ≤ jx ∧ jx < a * (p - 1) + p
            ∧ a * (p - 1) ≤ ix ∧ ix < a * (p - 1) + p)
          = (a * (p - 1) ≤ ix ∧ ix < a * (p - 1) + p) := by
        intro ix
        rw [eq_iff_iff]
        exact ⟨fun h => h.2.2, fun h => ⟨hj.1, hj.2, h⟩⟩
      simp only [hg]
      have haFE : a + 1 ≤ nFE := Finset.mem_range.mp ha
      have hbound : a * (p - 1) + p ≤ nFE * (p - 1) + 1 := by
        have : (a + 1) * (p - 1) ≤ nFE * (p - 1) :=
          Nat.mul_le_mul_right (p - 1) haFE
        rw [add_one_mul] at this
        omega
      have hblock := sum_blockFn (nFE * (p - 1) + 1) (a * (p - 1)) p hbound
        (fun i => ∑ s ∈ Finset.range p,
          -(dlagCoeff p (fun t => node (a * (p - 1) + t)) (jx - a * (p - 1)) (dG a s)
            * dlagCoeff p (fun t => node (a * (p - 1) + t)) i (dG a s)
            * dW a s
            / (dW a (jx - a * (p - 1))
                * (if jx - a * (p - 1) = 0 ∧ a ≠ 0 then 2 else 1)
                * (if jx - a * (p - 1) = p - 1 ∧ a ≠ nFE - 1 then 2 else 1))))
      calc ∑ ix ∈ Finset.range (nFE * (p - 1) + 1),
            (if a * (p - 1) ≤ ix ∧ ix < a * (p - 1) + p then
              ∑ s ∈ Finset.range p,
                -(dlagCoeff p (fun t => node (a * (p - 1) + t)) (jx - a * (p - 1))
                    (dG a s)
                  * dlagCoeff p (fun t => node (a * (p - 1) + t)) (ix - a * (p - 1))
                      (dG a s)
                  * dW a s
                  / (dW a (jx - a * (p - 1))
                      * (if jx - a * (p - 1) = 0 ∧ a ≠ 0 then 2 else 1)
                      * (if jx - a * (p - 1) = p - 1 ∧ a ≠ nFE - 1 then 2 else 1)))
            else 0)
          = ∑ i ∈ Finset.range p, ∑ s ∈ Finset.range p,
              -(dlagCoeff p (fun t => node (a * (p - 1) + t)) (jx - a * (p - 1))
                  (dG a s)
                * dlagCoeff p (fun t => node (a * (p - 1) + t)) i (dG a s)
                * dW a s
                / (dW a (jx - a * (p - 1))
                    * (if jx - a * (p - 1) = 0 ∧ a ≠ 0 then 2 else 1)
                    * (if jx - a * (p - 1) = p - 1 ∧ a ≠ nFE - 1 then 2 else 1))) := by
            simpa using hblock
        _ = ∑ s ∈ Finset.range p,
              (-(dlagCoeff p (fun t => node (a * (p - 1) + t)) (jx - a * (p - 1))
                  (dG a s)
                * dW a s
                / (dW a (jx - a * (p - 1))
                    * (if jx - a * (p - 1) = 0 ∧ a ≠ 0 then 2 else 1)
                    * (if jx - a * (p - 1) = p - 1 ∧ a ≠ nFE - 1 then 2 else 1))))
              * ∑ i ∈ Finset.range p,
                  dlagCoeff p (fun t => node (a * (p - 1) + t)) i (dG a s) := by
            rw [Finset.sum_comm]
            refine Finset.sum_congr rfl fun s _ => ?_
            rw [Finset.mul_sum]
            refine Finset.sum_congr rfl fun i _ => ?_
            ring
        _ = 0 := by
            refine Finset.sum_eq_zero fun s _ => ?_
            rw [sum_dlagCoeff p hp1 _ (hdist a hbound) (dG a s), mul_zero]
    · refine Finset.sum_eq_zero fun ix _ => ?_
      rw [if_neg (by
        intro hcon
        exact hj ⟨hcon.1, hcon.2.1⟩)]
  have hS2 : ∑ ix ∈ Finset.range (nFE * (p - 1) + 1),
      (if jx = 0 ∧ ix < p
        then -(dlagCoeff p (fun t => node (0 * (p - 1) + t)) ix (dG 0 0) / dW 0 0)
        else 0) = 0 := by
    by_cases hj0 : jx = 0
    · have hg : ∀ ix : ℕ, (jx = 0 ∧ ix < p) = (0 ≤ ix ∧ ix < 0 + p) := by
        intro ix
        rw [eq_iff_iff]
        exact ⟨fun h => ⟨Nat.zero_le _, by omega⟩, fun h => ⟨hj0, by omega⟩⟩
      simp only [hg]
      have hbound : (0 : ℕ) + p ≤ nFE * (p - 1) + 1 := by
        have : p - 1 ≤ nFE * (p - 1) := Nat.le_mul_of_pos_left (p - 1) (by omega)
        omega
      have hblock := sum_blockFn (nFE * (p - 1) + 1) 0 p hbound
        (fun i => -(dlagCoeff p (fun t => node (0 * (p - 1) + t)) i (dG 0 0) / dW 0 0))
      calc ∑ ix ∈ Finset.range (nFE * (p - 1) + 1),
            (if 0 ≤ ix ∧ ix < 0 + p then
              -(dlagCoeff p (fun t => node (0 * (p - 1) + t)) ix (dG 0 0) / dW 0 0)
            else 0)
          = ∑ i ∈ Finset.range p,
              -(dlagCoeff p (fun t => node (0 * (p - 1) + t)) i (dG 0 0) / dW 0 0) := by
            simpa using hblock
        _ = ∑ i ∈ Finset.range p,
              (-(dW 0 0)⁻¹)
                * dlagCoeff p (fun t => node (0 * (p - 1) + t)) i (dG 0 0) := by
            refine Finset.sum_congr rfl fun i _ => ?_
            ring
        _ = 0 := by
            rw [← Finset.mul_sum,
              sum_dlagCoeff p hp1 _ (by
                have hbound0 : 0 * (p - 1) + p ≤ nFE * (p - 1) + 1 := by
                  simpa using hbound
                exact hdist 0 hbound0) (dG 0 0), mul_zero]
    · refine Finset.sum_eq_zero fun ix _ => ?_
      rw [if_neg (fun hcon => hj0 hcon.1)]
  have hNsplit : nFE * (p - 1) = (nFE - 1) * (p - 1) + (p - 1) := by
    have : (nFE - 1 + 1) * (p - 1) = nFE * (p - 1) := by
      congr 1
      omega
    rw [← this, add_one_mul]
  have hS3 : ∑ ix ∈ Finset.range (nFE * (p - 1) + 1),
      (if jx = nFE * (p - 1)
          ∧ (nFE - 1) * (p - 1) ≤ ix ∧ ix < (nFE - 1) * (p - 1) + p then
        dlagCoeff p (fun t => node ((nFE - 1) * (p - 1) + t)) (ix - (nFE - 1) * (p - 1))
            (dG (nFE - 1) (p - 1))
          / dW (nFE - 1) (p - 1)
      else 0) = 0 := by
    by_cases hjT : jx = nFE * (p - 1)
    · have hg : ∀ ix : ℕ,
          (jx = nFE * (p - 1)
            ∧ (nFE - 1) * (p - 1) ≤ ix ∧ ix < (nFE - 1) * (p - 1) + p)
          = ((nFE - 1) * (p - 1) ≤ ix ∧ ix < (nFE - 1) * (p - 1) + p) := by
        intro ix
        rw [eq_iff_iff]
        exact ⟨fun h => h.2, fun h => ⟨hjT, h⟩⟩
      simp only [hg]
      have hbound : (nFE - 1) * (p - 1) + p ≤ nFE * (p - 1) + 1 := by omega
      have hblock := sum_blockFn (nFE * (p - 1) + 1) ((nFE - 1) * (p - 1)) p hbound
        (fun i => dlagCoeff p (fun t => node ((nFE - 1) * (p - 1) + t)) i
            (dG (nFE - 1) (p - 1))
          / dW (nFE - 1) (p - 1))
      calc ∑ ix ∈ Finset.range (nFE * (p - 1) + 1),
            (if (nFE - 1) * (p - 1) ≤ ix ∧ ix < (nFE - 1) * (p - 1) + p then
              dlagCoeff p (fun t => node ((nFE - 1) * (p - 1) + t))
                  (ix - (nFE - 1) * (p - 1)) (dG (nFE - 1) (p - 1))
                / dW (nFE - 1) (p - 1)
            else 0)
          = ∑ i ∈ Finset.range p,
              dlagCoeff p (fun t => node ((nFE - 1) * (p - 1) + t)) i
                  (dG (nFE - 1) (p - 1))
                / dW (nFE - 1) (p - 1) := by
            simpa using hblock
        _ = ∑ i ∈ Finset.range p,
              (dW (nFE - 1) (p - 1))⁻¹
                * dlagCoeff p (fun t => node ((nFE - 1) * (p - 1) + t)) i
                    (dG (nFE - 1) (p - 1)) := by
            refine Finset.sum_congr rfl fun i _ => ?_
            ring
        _ = 0 := by
            rw [← Finset.mul_sum,
              sum_dlagCoeff p hp1 _ (hdist (nFE - 1) hbound)
                (dG (nFE - 1) (p - 1)), mul_zero]
    · refine Finset.sum_eq_zero fun ix _ => ?_
      rw [if_neg (fun hcon => hjT hcon.1)]
  rw [hS1, hS2, hS3]
  ring

/-! ## Grid patch: geometric terms, checks and boundary conditions
(`GridPatchCartesianGLL.cpp`) -/

/-- The three vertical staggering modes of the grid
(`Grid::VerticalStaggering_*`). -/
inductive VerticalStaggering where
  | Levels
  | Interfaces
  | CharneyPhillips
deriving DecidableEq

/-- The normalized-vertical-area verification at the start of
`GridPatchCartesianGLL::EvaluateGeometricTerms` (lines 184–203): the sum
of the node areas is always checked against `1` with tolerance `1.0e-13`;
the sum of the interface areas is checked only when the vertical
staggering is not `Interfaces`. -/
def normAreaCheck (stag : VerticalStaggering) (wNode wREdge : List K) :
    Except String Unit :=
  if |wNode.sum - 1| > 1 / 10 ^ 13 then
    Except.error "Error in normalized areas"
  else if stag ≠ VerticalStaggering.Interfaces ∧ |wREdge.sum - 1| > 1 / 10 ^ 13 then
    Except.error "Error in normalized areas"
  else
    Except.ok ()

/-- Physical height at a model level in `EvaluateGeometricTerms`
(line 278): `dZ = dZs + (Ztop - dZs) * dREtaStretch`, where the stretch
value comes from `Grid::EvaluateVerticalStretchF` (not under `src/`,
modelled from the spec as the user-supplied stretch function `F`). -/
def dZgeom (Zs Ztop : K) (F : K → K) (r : K) : K :=
  Zs + (Ztop - Zs) * F r

/-- Horizontal derivative `dDaZ = (1 - dREtaStretch) * dDaZs`
(`EvaluateGeometricTerms` lines 280 and 382). -/
def dDaZ (DaZs : K) (F : K → K) (r : K) : K :=
  (1 - F r) * DaZs

/-- Horizontal derivative `dDbZ = (1 - dREtaStretch) * dDbZs`
(`EvaluateGeometricTerms` lines 281 and 383). -/
def dDbZ (DbZs : K) (F : K → K) (r : K) : K :=
  (1 - F r) * DbZs

/-- Vertical derivative `dDxZ = (Ztop - dZs) * dDxREtaStretch`
(`EvaluateGeometricTerms` lines 282 and 384); `dF` is the stretch
derivative returned by `EvaluateVerticalStretchF`. -/
def dDxZ (Zs Ztop : K) (dF : K → K) (r : K) : K :=
  (Ztop - Zs) * dF r

/-- The 2D Jacobian, set to `1` on the Cartesian grid
(`EvaluateGeometricTerms` line 245). -/
def jacobian2D : K := 1

/-- Pointwise 3D Jacobian `m_dataJacobian = dDxZ * m_dataJacobian2D`
(`EvaluateGeometricTerms` lines 293–294; the interface loop lines 394–395
stores the same expression in `m_dataJacobianREdge`). -/
def jacobianPt (Zs Ztop : K) (dF : K → K) (r : K) : K :=
  dDxZ Zs Ztop dF r * jacobian2D

/-- The stored 3D contravariant metric
(`m_dataContraMetricA/B/Xi`, `EvaluateGeometricTerms` lines 303–323; the
interface arrays `m_dataContraMetric*REdge`, lines 404–424, hold the same
expressions).  The 2D contravariant metric entries are the identity
(lines 248–252). -/
def contraMetric (DaZ DbZ DxZ : K) : Fin 3 → Fin 3 → K :=
  ![![1, 0, -DaZ / DxZ],
    ![0, 1, -DbZ / DxZ],
    ![-DaZ / DxZ, -DbZ / DxZ, (1 + DaZ * DaZ + DbZ * DbZ) / (DxZ * DxZ)]]

/-- The stored 3D covariant metric (`m_dataCovMetricA/B/Xi`,
`EvaluateGeometricTerms` lines 325–345).  The 2D covariant metric entries
are the identity (lines 255–259). -/
def covMetric (DaZ DbZ DxZ : K) : Fin 3 → Fin 3 → K :=
  ![![1 + DaZ * DaZ, DaZ * DbZ, DaZ * DxZ],
    ![DbZ * DaZ, 1 + DbZ * DbZ, DbZ * DxZ],
    ![DaZ * DxZ, DbZ * DxZ, DxZ * DxZ]]

/-- Physical heights filled by `GridPatchCartesianGLL::EvaluateTestCase`
into `m_dataZLevels` (lines 480–485): the Gal-Chen Sommerville formula
applied directly to `REtaLevel`, without the vertical stretch. -/
def zTestLevels (topo Ztop rEtaLevel : K) : K :=
  topo + rEtaLevel * (Ztop - topo)

/-- Physical heights filled by `EvaluateTestCase` into
`m_dataZInterfaces` (lines 486–491). -/
def zTestInterfaces (topo Ztop rEtaInterface : K) : K :=
  topo + rEtaInterface * (Ztop - topo)

/-- A single column of patch state: `m_datavecStateNode` and
`m_datavecStateREdge` at one horizontal position, indexed by component
(0 = U, 1 = V, 2 = θ, 3 = W, 4 = ρ) and vertical index. -/
structure ColumnState (K : Type) where
  node : Fin 5 → ℕ → K
  redge : Fin 5 → ℕ → K

/-- Bottom-surface metric data at one horizontal position:
`m_dataContraMetricXi[0][i][j][0..2]` and `m_dataDerivRNode[0][i][j][2]`. -/
structure BottomMetric (K : Type) where
  gXiA : K
  gXiB : K
  gXiXi : K
  dxZ : K

/-- Modelled from the spec: `GridPatchGLL::CalculateNoFlowUrNode` is not
under `src/`; the spec prescribes the no-flow boundary value
`w = -(g^{ξa} u + g^{ξb} v) / (g^{ξξ} · ∂_xiZ)`. -/
def calculateNoFlowUrNode (m : BottomMetric K) (u v : K) : K :=
  -(m.gXiA * u + m.gXiB * v) / (m.gXiXi * m.dxZ)

/-- `GridPatchCartesianGLL::ApplyBoundaryConditions` (lines 635–712,
contravariant velocities — the active `#else` paths) at one horizontal
position.  `Levels` staggering raises "Not implemented" (line 650); both
other staggerings overwrite the vertical velocity at `k = 0` of the
*node* state array with the no-flow value computed from the node-level
horizontal velocities (lines 674–678 and 703–707). -/
def applyBoundaryConditions (stag : VerticalStaggering) (m : BottomMetric K)
    (s : ColumnState K) : Except String (ColumnState K) :=
  match stag with
  | VerticalStaggering.Levels => Except.error "Not implemented"
  | VerticalStaggering.Interfaces =>
      Except.ok { s with node := fun c k =>
        (if c = 3 ∧ k = 0 then
          calculateNoFlowUrNode m (s.node 0 0) (s.node 1 0)
        else s.node c k) }
  | VerticalStaggering.CharneyPhillips =>
      Except.ok { s with node := fun c k =>
        (if c = 3 ∧ k = 0 then
          calculateNoFlowUrNode m (s.node 0 0) (s.node 1 0)
        else s.node c k) }

/-! ## Thermal bubble test case (`ThermalBubbleCartesianTest.cpp`) -/

/-- Modelled from the spec: the immutable physical-constants bundle
(`PhysicalConstants.cpp` is not under `src/`); only the accessors used by
the test case are modelled. -/
structure PhysicalConstants where
  g : ℝ
  Cp : ℝ
  Cv : ℝ
  Rd : ℝ
  P0 : ℝ

/-- Member data set by the `ThermalBubbleCartesianTest` constructor
(lines 74–90), including the domain bounds `m_dGDim`. -/
structure ThermalBubbleParams where
  H0 : ℝ
  thetaBar : ℝ
  thetaC : ℝ
  rC : ℝ
  xC : ℝ
  zC : ℝ
  piC : ℝ
  gdim : Fin 6 → ℝ

/-- The member values of the `ThermalBubbleCartesianTest` constructor. -/
def thermalBubbleTest : ThermalBubbleParams where
  H0 := 10000
  thetaBar := 300
  thetaC := 0.5
  rC := 250
  xC := 500
  zC := 350
  piC := 3.14159265
  gdim := ![0, 1000, -1000, 1000, 0, 1000]

/-- `ThermalBubbleCartesianTest::GetTracerCount` (= 0). -/
def thermalBubbleTracerCount : ℕ := 0

/-- `ThermalBubbleCartesianTest::GetZtop` returns `m_dGDim[5]`. -/
def thermalBubbleZtop : ℝ := thermalBubbleTest.gdim 5

/-- `ThermalBubbleCartesianTest::HasReferenceState` (= true). -/
def thermalBubbleHasReferenceState : Bool := true

/-- `ThermalBubbleCartesianTest::EvaluateTopography` (= 0 everywhere). -/
def thermalBubbleTopography (x y : ℝ) : ℝ := 0

/-- Command-line defaults set in `main` of the thermal bubble test
program (lines 237–248). -/
structure CommandLineDefaults where
  resolutionX : ℕ
  resolutionY : ℕ
  levels : ℕ
  horizontalOrder : ℕ
  verticalOrder : ℕ
  deltaT : String
  outputDeltaT : String
  endTime : String

/-- The command-line default values of the thermal bubble test program. -/
def thermalBubbleDefaults : CommandLineDefaults where
  resolutionX := 36
  resolutionY := 1
  levels := 72
  horizontalOrder := 4
  verticalOrder := 1
  deltaT := "10000u"
  outputDeltaT := "10s"
  endTime := "700s"

/-- `ThermalBubbleCartesianTest::EvaluateTPrime` (lines 137–156): the
potential-temperature perturbation of the bubble. -/
noncomputable def evaluateTPrime (xp zp : ℝ) : ℝ :=
  let xL2 := (xp - thermalBubbleTest.xC) * (xp - thermalBubbleTest.xC)
  let zL2 := (zp - thermalBubbleTest.zC) * (zp - thermalBubbleTest.zC)
  let dRp := Real.sqrt (xL2 + zL2)
  if dRp ≤ thermalBubbleTest.rC then
    0.5 * thermalBubbleTest.thetaC
      * (1 + Real.cos (thermalBubbleTest.piC * dRp / thermalBubbleTest.rC))
  else 0

/-- `ThermalBubbleCartesianTest::EvaluateReferenceState` (lines 161–189);
components in `dState` order `(U, V, θ, W, ρ)`. -/
noncomputable def evaluateReferenceState (phys : PhysicalConstants)
    (zp xp yp : ℝ) : Fin 5 → ℝ :=
  let exnerP := -phys.g / (phys.Cp * thermalBubbleTest.thetaBar) * zp + 1
  let rho := phys.P0 / (phys.Rd * thermalBubbleTest.thetaBar)
    * exnerP ^ (phys.Cv / phys.Rd)
  ![0, 0, thermalBubbleTest.thetaBar, 0, rho]

/-- `ThermalBubbleCartesianTest::EvaluatePointwiseState` (lines 194–224);
`t` is the (unused) time argument. -/
noncomputable def evaluatePointwiseState (phys : PhysicalConstants) (t : ℝ)
    (zp xp yp : ℝ) : Fin 5 → ℝ :=
  let exnerP := -phys.g / (phys.Cp * thermalBubbleTest.thetaBar) * zp + 1
  let rho := phys.P0 / (phys.Rd * thermalBubbleTest.thetaBar)
    * exnerP ^ (phys.Cv / phys.Rd)
  ![0, 0, thermalBubbleTest.thetaBar + evaluateTPrime xp zp, 0, rho]

/-- Modelled from the spec: the equation of state
`p = p_0 (R_d ρ θ / p_0)^{C_p/C_v}` (§4.5; `EquationSet.cpp` is not under
`src/`). -/
noncomputable def pressureEOS (phys : PhysicalConstants) (rho theta : ℝ) : ℝ :=
  phys.P0 * (phys.Rd * rho * theta / phys.P0) ^ (phys.Cp / phys.Cv)

/-- The physical constants of the CLI defaults (`g = 9.80616`,
`C_p = 1004.5`, `C_v = 717.5`, `R_d = 287`, `P_0 = 100000`), used as a
concrete instantiation. -/
def c8phys : PhysicalConstants where
  g := 9.80616
  Cp := 1004.5
  Cv := 717.5
  Rd := 287
  P0 := 100000

/-! ## Claim theorems -/

/-- C9: the thermal rising bubble test program is configured exactly as
the scenario states: domain `[0,1000]×[-1000,1000]×[0,1000]`, default
resolution `36×1` with `72` levels, horizontal order `4`, vertical order
`1`, time step `10000 μs` (the command-line string `"10000u"`), end time
`700 s`, bubble parameters `θ̄ = 300`, `θ_c = 0.5`, `r_c = 250`, center
`(500, 350)`, zero topography and zero tracers. -/
theorem claim_C9 :
    thermalBubbleTest.gdim 0 = 0 ∧ thermalBubbleTest.gdim 1 = 1000
    ∧ thermalBubbleTest.gdim 2 = -1000 ∧ thermalBubbleTest.gdim 3 = 1000
    ∧ thermalBubbleTest.gdim 4 = 0 ∧ thermalBubbleTest.gdim 5 = 1000
    ∧ thermalBubbleDefaults.resolutionX = 36
    ∧ thermalBubbleDefaults.resolutionY = 1
    ∧ thermalBubbleDefaults.levels = 72
    ∧ thermalBubbleDefaults.horizontalOrder = 4
    ∧ thermalBubbleDefaults.verticalOrder = 1
    ∧ thermalBubbleDefaults.deltaT = "10000u"
    ∧ thermalBubbleDefaults.endTime = "700s"
    ∧ thermalBubbleTest.thetaBar = 300
    ∧ thermalBubbleTest.thetaC = 0.5
    ∧ thermalBubbleTest.rC = 250
    ∧ thermalBubbleTest.xC = 500
    ∧ thermalBubbleTest.zC = 350
    ∧ (∀ x y : ℝ, thermalBubbleTopography x y = 0)
    ∧ thermalBubbleTracerCount = 0 := by
  refine ⟨rfl, rfl, rfl, rfl, rfl, rfl, rfl, rfl, rfl, rfl, rfl, rfl, rfl,
    rfl, rfl, rfl, rfl, rfl, fun x y => rfl, rfl⟩

/-- C5 counterexample: in `Interfaces` staggering the interface-area sum
is not verified — with node areas `[1]` and interface areas `[0]` (whose
sum deviates from `1` by `1`, far beyond `1.0e-13`) the check passes. -/
theorem claim_C5_counterexample :
    normAreaCheck VerticalStaggering.Interfaces [(1 : ℚ)] [0] = Except.ok ()
    ∧ |([(0 : ℚ)].sum - 1)| > 1 / 10 ^ 13 := by
  constructor
  · rw [normAreaCheck]
    norm_num
  · norm_num

/-- C5 (amended): `EvaluateGeometricTerms` verifies `∑ W_node = 1` to
`1.0e-13` for every staggering, but verifies `∑ W_edge = 1` only when the
vertical staggering is not `Interfaces`; it raises the geometry error
otherwise. -/
theorem claim_C5 (stag : VerticalStaggering) (wNode wREdge : List K) :
    normAreaCheck stag wNode wREdge = Except.ok ()
      ↔ (|wNode.sum - 1| ≤ 1 / 10 ^ 13
        ∧ (stag ≠ VerticalStaggering.Interfaces → |wREdge.sum - 1| ≤ 1 / 10 ^ 13)) := by
  rw [normAreaCheck]
  split_ifs with h1 h2
  · constructor
    · intro hcon
      exact absurd hcon (by simp)
    · intro hcon
      exact absurd h1 (not_lt.mpr hcon.1)
  · constructor
    · intro hcon
      exact absurd hcon (by simp)
    · intro hcon
      exact absurd h2.2 (not_lt.mpr (hcon.2 h2.1))
  · constructor
    · intro _
      refine ⟨not_lt.mp h1, fun hstag => ?_⟩
      by_contra hcon
      exact h2 ⟨hstag, not_le.mp hcon⟩
    · intro _
      rfl

/-- C5 witness: the amended statement evaluated at `Levels` staggering
with exact unit sums. -/
theorem claim_C5_witness :
    normAreaCheck VerticalStaggering.Levels [(1 : ℚ)] [1] = Except.ok ()
      ↔ (|([(1 : ℚ)].sum - 1)| ≤ 1 / 10 ^ 13
        ∧ (VerticalStaggering.Levels ≠ VerticalStaggering.Interfaces →
            |([(1 : ℚ)].sum - 1)| ≤ 1 / 10 ^ 13)) :=
  claim_C5 VerticalStaggering.Levels [(1 : ℚ)] [1]

/-- Concrete bottom-surface metric used to exercise the boundary
condition: `g^{ξa} = 1`, `g^{ξb} = 0`, `g^{ξξ} = 1`, `∂_xiZ = 1`. -/
def c1metric : BottomMetric ℚ :=
  { gXiA := 1, gXiB := 0, gXiXi := 1, dxZ := 1 }

/-- Concrete column state with horizontal velocity `u = 1` at the bottom
node and zeros everywhere else. -/
def c1state : ColumnState ℚ :=
  { node := fun c k => if c = 0 ∧ k = 0 then 1 else 0, redge := fun _ _ => 0 }

/-- The `w`-component at the bottom *interface* after applying the
boundary condition in Charney–Phillips staggering (`99` if the call
errored). -/
def c1CPREdgeW : ℚ :=
  match applyBoundaryConditions VerticalStaggering.CharneyPhillips c1metric c1state with
  | Except.ok s => s.redge 3 0
  | Except.error _ => 99

/-- The `w`-component at the bottom *node* after applying the boundary
condition in Charney–Phillips staggering (`99` if the call errored). -/
def c1CPNodeW : ℚ :=
  match applyBoundaryConditions VerticalStaggering.CharneyPhillips c1metric c1state with
  | Except.ok s => s.node 3 0
  | Except.error _ => 99

/-- C1 counterexample: the claim fails in two ways.  In `Levels`
staggering `ApplyBoundaryConditions` does not set `w` at all — it raises
"Not implemented".  In `CharneyPhillips` staggering the no-flow value
(`-1` for the sample metric and state, as `calculateNoFlowUrNode`
confirms) is written to the *node* array, while the interface array —
the w-location the claim names for Charney–Phillips — keeps its old
value `0`. -/
theorem claim_C1_counterexample :
    applyBoundaryConditions VerticalStaggering.Levels c1metric c1state
        = Except.error "Not implemented"
    ∧ calculateNoFlowUrNode c1metric (c1state.node 0 0) (c1state.node 1 0) = -1
    ∧ c1CPNodeW = -1
    ∧ c1CPREdgeW = 0 := by
  refine ⟨rfl, ?_, ?_, rfl⟩
  · rw [calculateNoFlowUrNode]
    norm_num [c1metric, c1state]
  · rw [c1CPNodeW]
    norm_num [applyBoundaryConditions, calculateNoFlowUrNode, c1metric, c1state]

/-- C1 (amended): for the `Interfaces` and `CharneyPhillips` staggerings
(`Levels` raises "Not implemented"), `ApplyBoundaryConditions` overwrites
the vertical velocity at `k = 0` of the *node* state array with
`-(g^{ξa} u + g^{ξb} v) / (g^{ξξ}·∂_xiZ)`, leaves every other entry and
the whole interface array unchanged, and afterwards the dot product of
the contravariant velocity with the upward normal is exactly zero at the
bottom nodes. -/
theorem claim_C1 (stag : VerticalStaggering)
    (hstag : stag ≠ VerticalStaggering.Levels) (m : BottomMetric K)
    (s : ColumnState K) (hXi : m.gXiXi ≠ 0) (hdx : m.dxZ ≠ 0) :
    ∃ s' : ColumnState K, applyBoundaryConditions stag m s = Except.ok s'
      ∧ s'.node 3 0 = calculateNoFlowUrNode m (s.node 0 0) (s.node 1 0)
      ∧ (∀ (c : Fin 5) (k : ℕ), ¬(c = 3 ∧ k = 0) → s'.node c k = s.node c k)
      ∧ s'.redge = s.redge
      ∧ m.gXiA * s.node 0 0 + m.gXiB * s.node 1 0
          + m.gXiXi * (s'.node 3 0 * m.dxZ) = 0 := by
  have hkey : ∀ s' : ColumnState K,
      s' = { s with node := fun c k =>
        (if c = 3 ∧ k = 0 then
          calculateNoFlowUrNode m (s.node 0 0) (s.node 1 0)
        else s.node c k) } →
      s'.node 3 0 = calculateNoFlowUrNode m (s.node 0 0) (s.node 1 0)
      ∧ (∀ (c : Fin 5) (k : ℕ), ¬(c = 3 ∧ k = 0) → s'.node c k = s.node c k)
      ∧ s'.redge = s.redge
      ∧ m.gXiA * s.node 0 0 + m.gXiB * s.node 1 0
          + m.gXiXi * (s'.node 3 0 * m.dxZ) = 0 := by
    intro s' hs'
    subst hs'
    refine ⟨by simp, fun c k hck => by simp [hck], rfl, ?_⟩
    simp only [if_pos (⟨rfl, rfl⟩ : (3 : Fin 5) = 3 ∧ (0 : ℕ) = 0)]
    rw [calculateNoFlowUrNode]
    field_simp
    ring
  cases stag with
  | Levels => exact absurd rfl hstag
  | Interfaces =>
      exact ⟨_, rfl, hkey _ rfl⟩
  | CharneyPhillips =>
      exact ⟨_, rfl, hkey _ rfl⟩

/-- C1 witness: the amended statement at the sample metric and state in
`Interfaces` staggering. -/
theorem claim_C1_witness :
    (VerticalStaggering.Interfaces ≠ VerticalStaggering.Levels
      ∧ c1metric.gXiXi ≠ 0 ∧ c1metric.dxZ ≠ 0)
    ∧ (∃ s' : ColumnState ℚ,
        applyBoundaryConditions VerticalStaggering.Interfaces c1metric c1state
            = Except.ok s'
        ∧ s'.node 3 0
            = calculateNoFlowUrNode c1metric (c1state.node 0 0) (c1state.node 1 0)
        ∧ (∀ (c : Fin 5) (k : ℕ), ¬(c = 3 ∧ k = 0) →
            s'.node c k = c1state.node c k)
        ∧ s'.redge = c1state.redge
        ∧ c1metric.gXiA * c1state.node 0 0 + c1metric.gXiB * c1state.node 1 0
            + c1metric.gXiXi * (s'.node 3 0 * c1metric.dxZ) = 0) :=
  ⟨⟨by simp, by norm_num [c1metric], by norm_num [c1metric]⟩,
    claim_C1 VerticalStaggering.Interfaces (by simp) c1metric c1state
      (by norm_num [c1metric]) (by norm_num [c1metric])⟩

/-- C2: after `EvaluateGeometricTerms`, at every (nodal or interface)
point the stored contravariant and covariant 3D metrics are exact
inverses (`∑ b, g^{ab} g_{bc} = δ^a_c`, stronger than the claimed
`1.0e-10` tolerance), and given a strictly monotone vertical stretch
(`dF > 0`) and topography strictly below the model top, both `∂_xiZ` and
the pointwise Jacobian `J = ∂_xiZ · J_2D` are strictly positive. -/
theorem claim_C2 (Zs DaZs DbZs Ztop : K) (F dF : K → K) (r : K)
    (hstretch : 0 < dF r) (htopo : Zs < Ztop) :
    (∀ a c : Fin 3,
      ∑ b : Fin 3,
        contraMetric (dDaZ DaZs F r) (dDbZ DbZs F r) (dDxZ Zs Ztop dF r) a b
          * covMetric (dDaZ DaZs F r) (dDbZ DbZs F r) (dDxZ Zs Ztop dF r) b c
        = if a = c then 1 else 0)
    ∧ 0 < dDxZ Zs Ztop dF r
    ∧ 0 < jacobianPt Zs Ztop dF r := by
  have hDx : (0 : K) < dDxZ Zs Ztop dF r := by
    rw [dDxZ]
    exact mul_pos (by linarith) hstretch
  have hDxne : dDxZ Zs Ztop dF r ≠ 0 := ne_of_gt hDx
  refine ⟨fun a c => ?_, hDx, ?_⟩
  · set Da := dDaZ DaZs F r
    set Db := dDbZ DbZs F r
    set Dx := dDxZ Zs Ztop dF r
    fin_cases a <;> fin_cases c <;>
      simp [contraMetric, covMetric, Fin.sum_univ_three] <;>
      field_simp <;> ring
  · rw [jacobianPt, jacobian2D, mul_one]
    exact hDx

/-- C2 witness: the metric inverse identity and Jacobian positivity at a
concrete sloped configuration (`z_s = 100`, `z_top = 10000`,
`∂_a z_s = 3`, `∂_b z_s = -2`, identity stretch, `REta = 1/4`). -/
theorem claim_C2_witness :
    ((0 : ℚ) < (fun _ : ℚ => (1 : ℚ)) (1 / 4) ∧ (100 : ℚ) < 10000)
    ∧ ((∀ a c : Fin 3,
        ∑ b : Fin 3,
          contraMetric (dDaZ (3 : ℚ) (fun x => x) (1 / 4))
              (dDbZ (-2) (fun x => x) (1 / 4))
              (dDxZ 100 10000 (fun _ => 1) (1 / 4)) a b
            * covMetric (dDaZ (3 : ℚ) (fun x => x) (1 / 4))
              (dDbZ (-2) (fun x => x) (1 / 4))
              (dDxZ 100 10000 (fun _ => 1) (1 / 4)) b c
          = if a = c then 1 else 0)
      ∧ 0 < dDxZ (100 : ℚ) 10000 (fun _ => 1) (1 / 4)
      ∧ 0 < jacobianPt (100 : ℚ) 10000 (fun _ => 1) (1 / 4)) :=
  ⟨⟨by norm_num, by norm_num⟩,
    claim_C2 100 3 (-2) 10000 (fun x => x) (fun _ => 1) (1 / 4)
      (by norm_num) (by norm_num)⟩

/-- Concrete two-element column used to exercise the vertical operators:
element edges `0, 1/2, 1` (order `p = 1`). -/
def c4edge : ℕ → ℚ :=
  fun i => if i = 0 then 0 else if i = 1 then 1 / 2 else 1

/-- Concrete nodal levels for the two-element column: one GLL node per
element, at `1/4` and `3/4`. -/
def c4node : ℕ → ℚ :=
  fun i => if i = 0 then 1 / 4 else 3 / 4

/-- C4 counterexample: with `fZeroBoundaries` set and *two* finite
elements, the code adds no boundary correction (the guard requires
`fZeroBoundaries` off), while the claim's condition
(`unless fZeroBoundaries is set together with nFiniteElements = 1`)
would add it: on the sample column with `g' ≡ 1` the first entry of the
bottom row is `-1` under the code and `-2` under the claim's guard. -/
theorem claim_C4_counterexample :
    fcRow 1 2 c4node c4edge (fun _ => 1) true c4node 0 0 = -1
    ∧ fcRowWith (¬((true : Bool) = true ∧ (2 : ℕ) = 1)) 1 2 c4node c4edge
        (fun _ => 1) c4node 0 0 = -2
    ∧ fcRow 1 2 c4node c4edge (fun _ => 1) true c4node 0 0
        ≠ fcRowWith (¬((true : Bool) = true ∧ (2 : ℕ) = 1)) 1 2 c4node c4edge
            (fun _ => 1) c4node 0 0 := by
  have hfe : findElem c4edge 1 (c4node 0) 0 (2 - 1) = (0, false) := by
    rw [show (2 : ℕ) - 1 = 0 + 1 from rfl, findElem]
    norm_num [c4edge, c4node, paramEpsilon]
  have h1 : fcRow 1 2 c4node c4edge (fun _ => 1) true c4node 0 0 = -1 := by
    rw [fcRow]
    rw [hfe]
    norm_num [c4edge, c4node, lagCoeff, dlagCoeff]
  have h2 : fcRowWith (¬((true : Bool) = true ∧ (2 : ℕ) = 1)) 1 2 c4node c4edge
      (fun _ => 1) c4node 0 0 = -2 := by
    rw [fcRowWith]
    rw [hfe]
    norm_num [c4edge, c4node, lagCoeff, dlagCoeff]
  exact ⟨h1, h2, by rw [h1, h2]; norm_num⟩

/-- C4 (amended): the flux-correction operator adds the one-sided
boundary corrections at `a = 0` and `a = nFiniteElements - 1` exactly
when `fZeroBoundaries` is *off* and `nFiniteElements ≠ 1` — i.e. its
assembly equals the guard-parametric assembly instantiated at
`fZeroBoundaries = false ∧ nFiniteElements ≠ 1`, for every order, grid,
correction function and row. -/
theorem claim_C4 (p nFE : ℕ) (node edge : ℕ → K) (gderiv : K → K)
    (fZB : Bool) (out : ℕ → K) (l k : ℕ) :
    fcRow p nFE node edge gderiv fZB out l k
      = fcRowWith (fZB = false ∧ nFE ≠ 1) p nFE node edge gderiv out l k := by
  rw [fcRow, fcRowWith]

/-- The blended interpolation row as the spec's words describe it: the
average of the two one-sided element interpolants (left element `a` over
its `p` nodes, right element `a + 1` over its `p` nodes) weighted by
`w_L = ΔR^p / (ΔL^p + ΔR^p)` and `w_R = ΔL^p / (ΔL^p + ΔR^p)` with
`ΔL, ΔR` the neighboring element widths. -/
def specBlendInterpRow (p : ℕ) (node edge : ℕ → K) (out : ℕ → K)
    (a l k : ℕ) : K :=
  let dL := edge ((a + 1) * p) - edge (a * p)
  let dR := edge ((a + 2) * p) - edge ((a + 1) * p)
  dR ^ p / (dL ^ p + dR ^ p)
      * (if a * p ≤ k ∧ k < (a + 1) * p then
          lagCoeff p (fun s => node (a * p + s)) (k - a * p) (out l)
        else 0)
    + dL ^ p / (dL ^ p + dR ^ p)
      * (if (a + 1) * p ≤ k ∧ k < (a + 1) * p + p then
          lagCoeff p (fun s => node ((a + 1) * p + s)) (k - (a + 1) * p) (out l)
        else 0)

/-- The blended interface-derivative row as the spec's words describe it:
the average of the two one-sided element derivatives (over the `p + 1`
interfaces of elements `a` and `a + 1`) with the same error weights
`ΔR^p / (ΔL^p + ΔR^p)` and `ΔL^p / (ΔL^p + ΔR^p)`. -/
def specBlendDiffRow (p : ℕ) (edge : ℕ → K) (out : ℕ → K) (a l k : ℕ) : K :=
  let dL := edge ((a + 1) * p) - edge (a * p)
  let dR := edge ((a + 2) * p) - edge ((a + 1) * p)
  dR ^ p / (dL ^ p + dR ^ p)
      * (if a * p ≤ k ∧ k < (a + 1) * p + 1 then
          dlagCoeff (p + 1) (fun s => edge (a * p + s)) (k - a * p) (out l)
        else 0)
    + dL ^ p / (dL ^ p + dR ^ p)
      * (if (a + 1) * p ≤ k ∧ k < (a + 2) * p + 1 then
          dlagCoeff (p + 1) (fun s => edge ((a + 1) * p + s)) (k - (a + 1) * p) (out l)
        else 0)

/-- Three-element interface grid `0, 1/3, 2/3, 1` (order `p = 1`) whose
internal interfaces are output points, used to exercise the on-edge
blending. -/
def c7edge : ℕ → ℚ :=
  fun i => if i = 0 then 0 else if i = 1 then 1 / 3 else if i = 2 then 2 / 3 else 1

/-- Nodal levels for the three-element grid, one node per element. -/
def c7node : ℕ → ℚ :=
  fun i => if i = 0 then 1 / 6 else if i = 1 then 1 / 2 else 5 / 6

/-- C7: when an output point of the interpolation operator (or of the
interface-method derivative operator) coincides with an internal
finite-element interface — the element search returns `fOnREdge = true` —
and the `p = 1` first/last-row overrides do not apply, the operator row
is exactly the average of the two one-sided rows weighted by
`w_L = ΔR^p / (ΔL^p + ΔR^p)` and `w_R = ΔL^p / (ΔL^p + ΔR^p)`, where
`ΔL` and `ΔR` are the widths of the left and right neighboring
elements. -/
theorem claim_C7 (p nFE : ℕ) (node edge : ℕ → K) (nOut : ℕ) (out : ℕ → K)
    (fZB : Bool) (l a : ℕ)
    (hfe : findElem edge p (out l) 0 (nFE - 1) = (a, true))
    (hact : interpLBegin out fZB ≤ l ∧ l < interpLEnd nOut out fZB)
    (h0 : ¬(p = 1 ∧ l = 0)) (hN : ¬(p = 1 ∧ l = nOut - 1)) :
    ∀ k : ℕ,
      interpRow p nFE node edge nOut out fZB l k
          = specBlendInterpRow p node edge out a l k
      ∧ diffIfaceRow p nFE edge out l k = specBlendDiffRow p edge out a l k := by
  intro k
  constructor
  · rw [interpRow, if_pos hact]
    rw [hfe, specBlendInterpRow]
    simp only [eq_false h0, eq_false hN, and_or_left, false_or, or_false, if_false]
    simp
  · rw [diffIfaceRow]
    rw [hfe, specBlendDiffRow]
    simp

/-- C7 witness: on the three-element grid with outputs at the
interfaces, the middle output row (`l = 1`, lying on the internal
interface at `1/3`) satisfies the blending identity for both
operators. -/
theorem claim_C7_witness :
    (findElem c7edge 1 (c7edge 1) 0 (3 - 1) = ((0 : ℕ), true)
      ∧ (interpLBegin c7edge false ≤ 1 ∧ 1 < interpLEnd 4 c7edge false)
      ∧ ¬((1 : ℕ) = 1 ∧ (1 : ℕ) = 0) ∧ ¬((1 : ℕ) = 1 ∧ (1 : ℕ) = 4 - 1))
    ∧ (∀ k : ℕ,
        interpRow 1 3 c7node c7edge 4 c7edge false 1 k
            = specBlendInterpRow 1 c7node c7edge c7edge 0 1 k
        ∧ diffIfaceRow 1 3 c7edge c7edge 1 k
            = specBlendDiffRow 1 c7edge c7edge 0 1 k) := by
  have hfe : findElem c7edge 1 (c7edge 1) 0 (3 - 1) = ((0 : ℕ), true) := by
    rw [show (3 : ℕ) - 1 = 1 + 1 from rfl, findElem]
    norm_num [c7edge, paramEpsilon]
  have hact : interpLBegin (K := ℚ) c7edge false ≤ 1
      ∧ 1 < interpLEnd 4 c7edge false := by
    rw [interpLBegin, interpLEnd]
    norm_num
  have h0 : ¬((1 : ℕ) = 1 ∧ (1 : ℕ) = 0) := by norm_num
  have hN : ¬((1 : ℕ) = 1 ∧ (1 : ℕ) = 4 - 1) := by norm_num
  exact ⟨⟨hfe, hact, h0, hN⟩,
    claim_C7 1 3 c7node c7edge 4 c7edge false 1 0 hfe hact h0 hN⟩

/-- C6 counterexample: with `fZeroBoundaries` set, the interface-method
derivative operator composed with the interpolation operator does *not*
annihilate constants: on the two-element column (edges `0, 1/2, 1`,
nodes `1/4, 3/4`, order `1`) the bottom row of the composed operator
sums to `2`, because the zeroed boundary rows of the interpolation
operator break the partition of unity. -/
theorem claim_C6_counterexample :
    ∑ k ∈ Finset.range 2, diffNodeRow 1 2 c4node c4edge c4node true 0 k = 2 := by
  have hfe1 : findElem c4edge 1 (c4node 0) 0 (2 - 1) = ((0 : ℕ), false) := by
    rw [show (2 : ℕ) - 1 = 0 + 1 from rfl, findElem]
    norm_num [c4edge, c4node, paramEpsilon]
  have hfe2 : findElem c4edge 1 (c4edge 1) 0 (2 - 1) = ((0 : ℕ), true) := by
    rw [show (2 : ℕ) - 1 = 0 + 1 from rfl, findElem]
    norm_num [c4edge, paramEpsilon]
  have hcond0 : ¬(interpLBegin (K := ℚ) c4edge true ≤ 0
      ∧ (0 : ℕ) < interpLEnd 3 c4edge true) := by
    rw [interpLBegin]
    norm_num [c4edge, paramEpsilon]
  have hcond2 : ¬(interpLBegin (K := ℚ) c4edge true ≤ 2
      ∧ (2 : ℕ) < interpLEnd 3 c4edge true) := by
    rw [interpLBegin, interpLEnd]
    norm_num [c4edge, paramEpsilon]
  have hcond1 : interpLBegin (K := ℚ) c4edge true ≤ 1
      ∧ (1 : ℕ) < interpLEnd 3 c4edge true := by
    rw [interpLBegin, interpLEnd]
    norm_num [c4edge, paramEpsilon]
  have hI0 : ∀ k, interpRow 1 2 c4node c4edge 3 c4edge true 0 k = 0 := by
    intro k
    rw [interpRow, if_neg hcond0]
  have hI2 : ∀ k, interpRow 1 2 c4node c4edge 3 c4edge true 2 k = 0 := by
    intro k
    rw [interpRow, if_neg hcond2]
  have hI1k0 : interpRow 1 2 c4node c4edge 3 c4edge true 1 0 = 1 / 2 := by
    rw [interpRow, if_pos hcond1, hfe2]
    norm_num [lagCoeff, c4node, c4edge]
  have hI1k1 : interpRow 1 2 c4node c4edge 3 c4edge true 1 1 = 1 / 2 := by
    rw [interpRow, if_pos hcond1, hfe2]
    norm_num [lagCoeff, c4node, c4edge]
  have e20 : (Finset.range 2).erase 0 = {1} := by decide
  have e21 : (Finset.range 2).erase 1 = {0} := by decide
  have es1 : ({1} : Finset ℕ).erase 1 = ∅ := by decide
  have es0 : ({0} : Finset ℕ).erase 0 = ∅ := by decide
  have hD0 : diffIfaceRow 1 2 c4edge c4node 0 0 = -2 := by
    rw [diffIfaceRow, hfe1]
    norm_num [dlagCoeff, c4edge, c4node, e20, e21, es1, es0,
      Finset.sum_singleton, Finset.prod_empty]
  have hD1 : diffIfaceRow 1 2 c4edge c4node 0 1 = 2 := by
    rw [diffIfaceRow, hfe1]
    norm_num [dlagCoeff, c4edge, c4node, e20, e21, es1, es0,
      Finset.sum_singleton, Finset.prod_empty]
  have hD2 : diffIfaceRow 1 2 c4edge c4node 0 2 = 0 := by
    rw [diffIfaceRow, hfe1]
    norm_num [dlagCoeff, c4edge, c4node, e20, e21, es1, es0,
      Finset.sum_singleton, Finset.prod_empty]
  simp only [diffNodeRow]
  norm_num only
  simp only [Finset.sum_range_succ, Finset.sum_range_zero, zero_add,
    hD0, hD1, hD2, hI0, hI2, hI1k0, hI1k1]
  norm_num

/-- C6 (amended): each vertical derivative operator annihilates constant
columns — every row of the interface-method derivative, of its
composition with interpolation when `fZeroBoundaries` is off, of the
flux-correction derivative at outputs not lying on an internal
finite-element edge, and of the GLL second derivative, sums exactly to
zero (stronger than the claimed `1.0e-12`); the composed operator with
`fZeroBoundaries` set is excluded, as `claim_C6_counterexample`'s grid
shows it must be. -/
theorem claim_C6 (p nFE : ℕ) (hp : p ≠ 0) (hFE : nFE ≠ 0)
    (hp1 : p = 1 → 2 ≤ nFE) (node edge : ℕ → K)
    (hnode : ∀ i j, i < j → j < nFE * p → node i < node j)
    (hgap : ∀ i < nFE * p, edge i + 2 * paramEpsilon < edge (i + 1))
    (out : ℕ → K) (l : ℕ) :
    ∑ k ∈ Finset.range (nFE * p + 1), diffIfaceRow p nFE edge out l k = 0
    ∧ ∑ k ∈ Finset.range (nFE * p), diffNodeRow p nFE node edge out false l k = 0
    ∧ (∀ (gderiv : K → K) (fZB : Bool),
        (findElem edge p (out l) 0 (nFE - 1)).2 = false →
        ∑ k ∈ Finset.range (nFE * p), fcRow p nFE node edge gderiv fZB out l k = 0)
    ∧ (∀ (q nG : ℕ) (nodeG : ℕ → K) (dG dW : ℕ → ℕ → K) (jx : ℕ),
        2 ≤ q → nG ≠ 0 →
        (∀ i j, i < j → j ≤ nG * (q - 1) → nodeG i < nodeG j) →
        ∑ ix ∈ Finset.range (nG * (q - 1) + 1),
          diffDiffRow q nG nodeG dG dW jx ix = 0) :=
  ⟨sum_diffIfaceRow p nFE hp hFE edge (edge_chain_lt (nFE * p) edge hgap) out l,
    sum_diffNodeRow p nFE hp hFE hp1 node edge hnode hgap out l,
    fun gderiv fZB hnotE =>
      sum_fcRow p nFE hp hFE node edge hnode gderiv fZB out l hnotE,
    fun q nG nodeG dG dW jx hq hnG hmono =>
      sum_diffDiffRow q nG hq hnG nodeG hmono dG dW jx⟩

/-- C6 witness: the amended statement on the concrete two-element
column (order `1`, edges `0, 1/2, 1`, nodes `1/4, 3/4`, outputs at the
nodes). -/
theorem claim_C6_witness :
    ((1 : ℕ) ≠ 0 ∧ (2 : ℕ) ≠ 0 ∧ ((1 : ℕ) = 1 → 2 ≤ 2)
      ∧ (∀ i j, i < j → j < 2 * 1 → c4node i < c4node j)
      ∧ (∀ i < 2 * 1, c4edge i + 2 * paramEpsilon < c4edge (i + 1)))
    ∧ (∑ k ∈ Finset.range (2 * 1 + 1), diffIfaceRow 1 2 c4edge c4node 0 k = 0
      ∧ ∑ k ∈ Finset.range (2 * 1),
          diffNodeRow 1 2 c4node c4edge c4node false 0 k = 0
      ∧ (∀ (gderiv : ℚ → ℚ) (fZB : Bool),
          (findElem c4edge 1 (c4node 0) 0 (2 - 1)).2 = false →
          ∑ k ∈ Finset.range (2 * 1),
            fcRow 1 2 c4node c4edge gderiv fZB c4node 0 k = 0)
      ∧ (∀ (q nG : ℕ) (nodeG : ℕ → ℚ) (dG dW : ℕ → ℕ → ℚ) (jx : ℕ),
          2 ≤ q → nG ≠ 0 →
          (∀ i j, i < j → j ≤ nG * (q - 1) → nodeG i < nodeG j) →
          ∑ ix ∈ Finset.range (nG * (q - 1) + 1),
            diffDiffRow q nG nodeG dG dW jx ix = 0)) := by
  have hnode : ∀ i j, i < j → j < 2 * 1 → c4node i < c4node j := by
    intro i j hij hj
    obtain ⟨hi0, hj1⟩ : i = 0 ∧ j = 1 := by omega
    subst hi0
    subst hj1
    norm_num [c4node]
  have hgap : ∀ i < 2 * 1, c4edge i + 2 * paramEpsilon < c4edge (i + 1) := by
    intro i hi
    interval_cases i <;> norm_num [c4edge, paramEpsilon]
  exact ⟨⟨by norm_num, by norm_num, fun _ => by norm_num, hnode, hgap⟩,
    claim_C6 1 2 (by norm_num) (by norm_num) (fun _ => by norm_num)
      c4node c4edge hnode hgap c4node 0⟩

/-- C3 counterexample: with the non-identity vertical stretch
`F(x) = x²`, the height cached by `EvaluateTestCase` at `REta = 1/2`
(no stretch applied) differs from the height used by
`EvaluateGeometricTerms` (stretch applied). -/
theorem claim_C3_counterexample :
    zTestLevels (0 : ℚ) 1000 (1 / 2) ≠ dZgeom 0 1000 (fun x => x * x) (1 / 2) := by
  rw [zTestLevels, dZgeom]
  norm_num

/-- C3 (amended): the height used by `EvaluateGeometricTerms` is
`z_s + (z_top - z_s)·F(REta)`, while the heights cached in
`m_dataZLevels`/`m_dataZInterfaces` by `EvaluateTestCase` apply the
Gal-Chen formula to `REta` directly, without the stretch:
`z_s + (z_top - z_s)·REta`; the two agree exactly when the stretch fixes
the given `REta`. -/
theorem claim_C3 (Zs Ztop : K) (F : K → K) (r : K) :
    dZgeom Zs Ztop F r = Zs + (Ztop - Zs) * F r
    ∧ zTestLevels Zs Ztop r = Zs + (Ztop - Zs) * r
    ∧ zTestInterfaces Zs Ztop r = Zs + (Ztop - Zs) * r
    ∧ (F r = r → zTestLevels Zs Ztop r = dZgeom Zs Ztop F r) := by
  refine ⟨rfl, by rw [zTestLevels]; ring, by rw [zTestInterfaces]; ring, fun hF => ?_⟩
  rw [zTestLevels, dZgeom, hF]
  ring

/-- C3 witness: the amended statement at the identity stretch, where the
two heights agree. -/
theorem claim_C3_witness :
    dZgeom (100 : ℚ) 10000 (fun x => x) (1 / 2)
        = 100 + (10000 - 100) * (1 / 2)
    ∧ zTestLevels (100 : ℚ) 10000 (1 / 2) = 100 + (10000 - 100) * (1 / 2)
    ∧ zTestInterfaces (100 : ℚ) 10000 (1 / 2) = 100 + (10000 - 100) * (1 / 2)
    ∧ ((fun x : ℚ => x) (1 / 2) = 1 / 2 →
        zTestLevels (100 : ℚ) 10000 (1 / 2)
          = dZgeom (100 : ℚ) 10000 (fun x => x) (1 / 2)) :=
  claim_C3 (100 : ℚ) 10000 (fun x => x) (1 / 2)

/-- C8: for every height `z` and horizontal position,
`EvaluateReferenceState` writes zero into the velocity components
(`out[0]`, `out[1]`, `out[3]`), the constant `θ̄ = 300` into `out[2]`,
and the density `p_0/(R_d θ̄) · (1 - g z/(C_p θ̄))^{C_v/R_d}` into
`out[4]`; with positive constants satisfying Mayer's relation
`C_p = C_v + R_d` and the Exner base positive at `z`, that state is in
exact hydrostatic balance: the pressure of the equation of state
`p = p_0 (R_d ρ θ / p_0)^{C_p/C_v}` along the reference column has
derivative `-ρ(z)·g` in `z`. -/
theorem claim_C8 (phys : PhysicalConstants) (z x y : ℝ)
    (hCp : 0 < phys.Cp) (hCv : 0 < phys.Cv) (hRd : 0 < phys.Rd)
    (hP0 : 0 < phys.P0) (hMayer : phys.Cp = phys.Cv + phys.Rd)
    (hz : 0 < -phys.g / (phys.Cp * 300) * z + 1) :
    evaluateReferenceState phys z x y 0 = 0
    ∧ evaluateReferenceState phys z x y 1 = 0
    ∧ evaluateReferenceState phys z x y 3 = 0
    ∧ evaluateReferenceState phys z x y 2 = 300
    ∧ evaluateReferenceState phys z x y 4
        = phys.P0 / (phys.Rd * 300)
          * (1 - phys.g * z / (phys.Cp * 300)) ^ (phys.Cv / phys.Rd)
    ∧ HasDerivAt
        (fun w => pressureEOS phys (evaluateReferenceState phys w x y 4) 300)
        (-(evaluateReferenceState phys z x y 4) * phys.g) z := by
  have hCp0 : phys.Cp ≠ 0 := ne_of_gt hCp
  have hCv0 : phys.Cv ≠ 0 := ne_of_gt hCv
  have hRd0 : phys.Rd ≠ 0 := ne_of_gt hRd
  have hP00 : phys.P0 ≠ 0 := ne_of_gt hP0
  have h4 : ∀ w : ℝ, evaluateReferenceState phys w x y 4
      = phys.P0 / (phys.Rd * 300)
        * (-phys.g / (phys.Cp * 300) * w + 1) ^ (phys.Cv / phys.Rd) := by
    intro w
    simp [evaluateReferenceState, thermalBubbleTest]
  have hfun : ∀ w : ℝ, 0 < -phys.g / (phys.Cp * 300) * w + 1 →
      pressureEOS phys (evaluateReferenceState phys w x y 4) 300
        = phys.P0
          * (-phys.g / (phys.Cp * 300) * w + 1) ^ (phys.Cp / phys.Rd) := by
    intro w hw
    rw [pressureEOS, h4 w]
    have harg : phys.Rd
        * (phys.P0 / (phys.Rd * 300)
          * (-phys.g / (phys.Cp * 300) * w + 1) ^ (phys.Cv / phys.Rd))
        * 300 / phys.P0
        = (-phys.g / (phys.Cp * 300) * w + 1) ^ (phys.Cv / phys.Rd) := by
      field_simp
      ring
    rw [harg, ← Real.rpow_mul (le_of_lt hw)]
    rw [show phys.Cv / phys.Rd * (phys.Cp / phys.Cv) = phys.Cp / phys.Rd from by
      field_simp
      ring]
  have hEderiv : HasDerivAt (fun w : ℝ => -phys.g / (phys.Cp * 300) * w + 1)
      (-phys.g / (phys.Cp * 300)) z := by
    simpa using
      ((hasDerivAt_id z).const_mul (-phys.g / (phys.Cp * 300))).add_const 1
  have hD1 : HasDerivAt
      (fun w : ℝ => (-phys.g / (phys.Cp * 300) * w + 1) ^ (phys.Cp / phys.Rd))
      (-phys.g / (phys.Cp * 300) * (phys.Cp / phys.Rd)
        * (-phys.g / (phys.Cp * 300) * z + 1) ^ (phys.Cp / phys.Rd - 1)) z :=
    hEderiv.rpow_const (Or.inl (ne_of_gt hz))
  have hD2 := hD1.const_mul phys.P0
  have hEcont : Continuous (fun w : ℝ => -phys.g / (phys.Cp * 300) * w + 1) := by
    continuity
  have hopen : IsOpen {w : ℝ | 0 < -phys.g / (phys.Cp * 300) * w + 1} :=
    isOpen_lt continuous_const hEcont
  have hev : (fun w : ℝ =>
        pressureEOS phys (evaluateReferenceState phys w x y 4) 300)
      =ᶠ[nhds z] (fun w : ℝ =>
        phys.P0 * (-phys.g / (phys.Cp * 300) * w + 1) ^ (phys.Cp / phys.Rd)) := by
    filter_upwards [hopen.mem_nhds hz] with w hw
    exact hfun w hw
  have hD3 := (hD2.congr_of_eventuallyEq hev)
  have hexp : phys.Cp / phys.Rd - 1 = phys.Cv / phys.Rd := by
    rw [hMayer]
    field_simp
  have hval : phys.P0
      * (-phys.g / (phys.Cp * 300) * (phys.Cp / phys.Rd)
        * (-phys.g / (phys.Cp * 300) * z + 1) ^ (phys.Cp / phys.Rd - 1))
      = -(evaluateReferenceState phys z x y 4) * phys.g := by
    rw [hexp, h4 z]
    field_simp
    ring
  refine ⟨by simp [evaluateReferenceState], by simp [evaluateReferenceState],
    by simp [evaluateReferenceState],
    by simp [evaluateReferenceState, thermalBubbleTest], ?_, ?_⟩
  · rw [h4 z]
    rw [show -phys.g / (phys.Cp * 300) * z + 1
        = 1 - phys.g * z / (phys.Cp * 300) from by ring]
  · exact hval ▸ hD3

/-- C8 witness: hydrostatic balance of the reference state at `z = 0`
with the standard constants `g = 9.80616`, `C_p = 1004.5`,
`C_v = 717.5`, `R_d = 287`, `P_0 = 100000`. -/
theorem claim_C8_witness :
    ((0 : ℝ) < c8phys.Cp ∧ (0 : ℝ) < c8phys.Cv ∧ (0 : ℝ) < c8phys.Rd
      ∧ (0 : ℝ) < c8phys.P0 ∧ c8phys.Cp = c8phys.Cv + c8phys.Rd
      ∧ (0 : ℝ) < -c8phys.g / (c8phys.Cp * 300) * 0 + 1)
    ∧ (evaluateReferenceState c8phys 0 0 0 0 = 0
      ∧ evaluateReferenceState c8phys 0 0 0 1 = 0
      ∧ evaluateReferenceState c8phys 0 0 0 3 = 0
      ∧ evaluateReferenceState c8phys 0 0 0 2 = 300
      ∧ evaluateReferenceState c8phys 0 0 0 4
          = c8phys.P0 / (c8phys.Rd * 300)
            * (1 - c8phys.g * 0 / (c8phys.Cp * 300)) ^ (c8phys.Cv / c8phys.Rd)
      ∧ HasDerivAt
          (fun w => pressureEOS c8phys (evaluateReferenceState c8phys w 0 0 4) 300)
          (-(evaluateReferenceState c8phys 0 0 0 4) * c8phys.g) 0) :=
  ⟨⟨by norm_num [c8phys], by norm_num [c8phys], by norm_num [c8phys],
      by norm_num [c8phys], by norm_num [c8phys], by norm_num [c8phys]⟩,
    claim_C8 c8phys 0 0 0 (by norm_num [c8phys]) (by norm_num [c8phys])
      (by norm_num [c8phys]) (by norm_num [c8phys]) (by norm_num [c8phys])
      (by norm_num [c8phys])⟩

lemma tprime_bounds (xp zp : ℝ) :
    0 ≤ evaluateTPrime xp zp
      ∧ evaluateTPrime xp zp ≤ thermalBubbleTest.thetaC := by
  have key : ∀ u : ℝ,
      0 ≤ (0.5 : ℝ) * thermalBubbleTest.thetaC * (1 + Real.cos u)
      ∧ (0.5 : ℝ) * thermalBubbleTest.thetaC * (1 + Real.cos u)
          ≤ thermalBubbleTest.thetaC := by
    intro u
    have h1 := Real.neg_one_le_cos u
    have h2 := Real.cos_le_one u
    constructor <;> norm_num [thermalBubbleTest] <;> nlinarith
  simp only [evaluateTPrime]
  split_ifs with h
  · exact key _
  · exact ⟨le_refl 0, by norm_num [thermalBubbleTest]⟩

lemma tprime_outside (xp zp : ℝ)
    (h : thermalBubbleTest.rC
      < Real.sqrt ((xp - thermalBubbleTest.xC) * (xp - thermalBubbleTest.xC)
          + (zp - thermalBubbleTest.zC) * (zp - thermalBubbleTest.zC))) :
    evaluateTPrime xp zp = 0 := by
  simp only [evaluateTPrime]
  rw [if_neg (not_le.mpr h)]

lemma tprime_at_edge :
    evaluateTPrime 750 350 = 1 / 4 * (1 + Real.cos 3.14159265) := by
  simp only [evaluateTPrime]
  rw [show ((750 : ℝ) - thermalBubbleTest.xC) * ((750 : ℝ) - thermalBubbleTest.xC)
      + ((350 : ℝ) - thermalBubbleTest.zC) * ((350 : ℝ) - thermalBubbleTest.zC)
      = 250 ^ 2 from by norm_num [thermalBubbleTest]]
  rw [Real.sqrt_sq (by norm_num : (0 : ℝ) ≤ 250)]
  rw [if_pos (show (250 : ℝ) ≤ thermalBubbleTest.rC from by
    norm_num [thermalBubbleTest])]
  norm_num [thermalBubbleTest]

lemma pi_sub_bounds :
    0 < Real.pi - 3.14159265 ∧ Real.pi - 3.14159265 < 0.0000000036 := by
  constructor
  · have h := Real.pi_gt_d20
    have : (3.14159265 : ℝ) < 3.14159265358979323846 := by norm_num
    linarith
  · have h := Real.pi_lt_d20
    have : (3.14159265358979323847 : ℝ) < 3.14159265 + 0.0000000036 := by
      norm_num
    linarith

lemma cos_piC_key :
    Real.cos 3.14159265 = -Real.cos (Real.pi - 3.14159265) := by
  have key := Real.cos_pi_sub (Real.pi - 3.14159265)
  rw [show Real.pi - (Real.pi - 3.14159265) = (3.14159265 : ℝ) from by ring] at key
  exact key

lemma tprime_jump_pos : 0 < evaluateTPrime 750 350 := by
  rw [tprime_at_edge]
  obtain ⟨hd1, hd2⟩ := pi_sub_bounds
  have habs : |Real.pi - 3.14159265| ≤ Real.pi := by
    rw [abs_of_pos hd1]
    have := Real.pi_gt_d6
    linarith
  have hcos := Real.cos_le_one_sub_mul_cos_sq habs
  have hpos : 0 < 2 / Real.pi ^ 2 * (Real.pi - 3.14159265) ^ 2 := by
    have := Real.pi_pos
    positivity
  rw [cos_piC_key]
  nlinarith

lemma tprime_jump_small : evaluateTPrime 750 350 < 1 / 10 ^ 13 := by
  rw [tprime_at_edge]
  obtain ⟨hd1, hd2⟩ := pi_sub_bounds
  have hcos := Real.one_sub_sq_div_two_le_cos (x := Real.pi - 3.14159265)
  have hsq : (Real.pi - 3.14159265) ^ 2 < 0.0000000036 ^ 2 := by
    nlinarith
  rw [cos_piC_key]
  nlinarith

/-- C10 counterexample: the bubble perturbation is *not* continuous at
distance `r_c` from the center: approaching `(750, 350)` (which lies at
distance exactly `250` from the center `(500, 350)`) from the right the
perturbation is identically `0`, yet its value there is
`(1 + cos 3.14159265)/4 > 0` — because the code's `piC = 3.14159265` is
not `π`, the cosine window does not close. -/
theorem claim_C10_counterexample :
    ¬ ContinuousAt (fun u : ℝ => evaluateTPrime u 350) 750 := by
  intro hc
  have ht : Filter.Tendsto (fun u : ℝ => evaluateTPrime u 350)
      (nhdsWithin 750 (Set.Ioi 750)) (nhds (evaluateTPrime 750 350)) :=
    hc.tendsto.mono_left nhdsWithin_le_nhds
  have hzero : (fun u : ℝ => evaluateTPrime u 350)
      =ᶠ[nhdsWithin (750 : ℝ) (Set.Ioi 750)] (fun _ => (0 : ℝ)) := by
    filter_upwards [self_mem_nhdsWithin] with u hu
    have hu750 : (750 : ℝ) < u := Set.mem_Ioi.mp hu
    apply tprime_outside
    rw [show ((u : ℝ) - thermalBubbleTest.xC) * (u - thermalBubbleTest.xC)
        + ((350 : ℝ) - thermalBubbleTest.zC) * ((350 : ℝ) - thermalBubbleTest.zC)
        = (u - 500) ^ 2 from by norm_num [thermalBubbleTest]; ring]
    rw [Real.sqrt_sq (by linarith : (0 : ℝ) ≤ u - 500)]
    norm_num [thermalBubbleTest]
    linarith
  have h0 : Filter.Tendsto (fun u : ℝ => evaluateTPrime u 350)
      (nhdsWithin 750 (Set.Ioi 750)) (nhds 0) :=
    Filter.Tendsto.congr' hzero.symm tendsto_const_nhds
  exact absurd (tendsto_nhds_unique ht h0) (ne_of_gt tprime_jump_pos)

/-- C10 (amended): `EvaluatePointwiseState` agrees with
`EvaluateReferenceState` in the velocity and density components and
exceeds it in `θ` by exactly `EvaluateTPrime(x, z)`; the perturbation
lies in `[0, θ_c]`, equals `θ_c` at the bubble center, and vanishes
whenever the distance from the center exceeds `r_c` — but it is *not*
continuous at distance `r_c`: its on-edge value is the positive residue
`(1 + cos 3.14159265)/4`, smaller than `1.0e-13` (the code's `piC` is a
truncation of `π`). -/
theorem claim_C10 (phys : PhysicalConstants) (t zp xp yp : ℝ) :
    evaluatePointwiseState phys t zp xp yp 0 = evaluateReferenceState phys zp xp yp 0
    ∧ evaluatePointwiseState phys t zp xp yp 1 = evaluateReferenceState phys zp xp yp 1
    ∧ evaluatePointwiseState phys t zp xp yp 3 = evaluateReferenceState phys zp xp yp 3
    ∧ evaluatePointwiseState phys t zp xp yp 4 = evaluateReferenceState phys zp xp yp 4
    ∧ evaluatePointwiseState phys t zp xp yp 2
        = evaluateReferenceState phys zp xp yp 2 + evaluateTPrime xp zp
    ∧ (0 ≤ evaluateTPrime xp zp
        ∧ evaluateTPrime xp zp ≤ thermalBubbleTest.thetaC)
    ∧ evaluateTPrime thermalBubbleTest.xC thermalBubbleTest.zC
        = thermalBubbleTest.thetaC
    ∧ (thermalBubbleTest.rC
        < Real.sqrt ((xp - thermalBubbleTest.xC) * (xp - thermalBubbleTest.xC)
            + (zp - thermalBubbleTest.zC) * (zp - thermalBubbleTest.zC)) →
        evaluateTPrime xp zp = 0)
    ∧ 0 < evaluateTPrime 750 350
    ∧ evaluateTPrime 750 350 < 1 / 10 ^ 13 := by
  refine ⟨by simp [evaluatePointwiseState, evaluateReferenceState],
    by simp [evaluatePointwiseState, evaluateReferenceState],
    by simp [evaluatePointwiseState, evaluateReferenceState],
    by simp [evaluatePointwiseState, evaluateReferenceState],
    by simp [evaluatePointwiseState, evaluateReferenceState],
    tprime_bounds xp zp, ?_, tprime_outside xp zp,
    tprime_jump_pos, tprime_jump_small⟩
  simp only [evaluateTPrime]
  norm_num [thermalBubbleTest, Real.sqrt_zero, Real.cos_zero]

end Tempest
